import Mathlib

/-!
Verification of the structural-rewriting core of the dace graph module
(dace/graph/nxutil.py): depth-first topological traversal, depth-limited
search and enumeration, edge redirection, subgraph replacement and map
fusion.  The Ordered Multigraph ADT that nxutil.py consumes (dace/graph/
graph.py) is not among the sources, so it is modelled from the spec; every
algorithm below is a direct translation of the corresponding Python
function in nxutil.py.
-/

namespace DaceNx

/-- Modelled from the spec: an edge of the Ordered Multigraph ADT (the graph
module `dace/graph/graph.py` is not among the sources).  `conns = none`
models a plain `Edge` (no connector attributes); `conns = some (sc, dc)`
models a `MultiConnectorEdge` carrying an optional source-connector name
`sc` and an optional destination-connector name `dc`.  `data` is the opaque
payload carried by the edge. -/
structure Edge (ν δ : Type) where
  src : ν
  dst : ν
  conns : Option (Option String × Option String)
  data : δ
deriving DecidableEq, Repr

/-- Modelled from the spec: the Ordered Multigraph ADT, a directed
multigraph with deterministic node/edge iteration order equal to insertion
order; nodes and edges are kept as insertion-ordered lists. -/
structure Graph (ν δ : Type) where
  nodes : List ν
  edges : List (Edge ν δ)
deriving DecidableEq, Repr

variable {ν δ : Type} [DecidableEq ν] [DecidableEq δ]

/-- Source connector of an edge; `none` both for plain edges and for a
multi-connector edge without a source connector name (Python reads the
attribute, which is `None` in the latter case). -/
def Edge.srcConn (e : Edge ν δ) : Option String :=
  match e.conns with
  | some c => c.1
  | none => none

/-- Destination connector of an edge (see `Edge.srcConn`). -/
def Edge.dstConn (e : Edge ν δ) : Option String :=
  match e.conns with
  | some c => c.2
  | none => none

/-- Modelled from the spec: `in_edges(n)`, the edges whose destination is
`n`, in insertion order. -/
def Graph.in_edges (g : Graph ν δ) (n : ν) : List (Edge ν δ) :=
  g.edges.filter (fun e => decide (e.dst = n))

/-- Modelled from the spec: `out_edges(n)`, the edges whose source is `n`,
in insertion order. -/
def Graph.out_edges (g : Graph ν δ) (n : ν) : List (Edge ν δ) :=
  g.edges.filter (fun e => decide (e.src = n))

/-- Modelled from the spec: `in_degree(n)` counts parallel in-edges. -/
def Graph.in_degree (g : Graph ν δ) (n : ν) : Nat :=
  (g.in_edges n).length

/-- Modelled from the spec: `out_degree(n)` counts parallel out-edges. -/
def Graph.out_degree (g : Graph ν δ) (n : ν) : Nat :=
  (g.out_edges n).length

/-- Modelled from the spec: `neighbors(n)`, the distinct successors of `n`
in first-edge insertion order (adjacency keys). -/
def Graph.neighbors (g : Graph ν δ) (n : ν) : List ν :=
  ((g.out_edges n).map Edge.dst).dedup

/-- Modelled from the spec: `predecessors(n)`, the distinct predecessors of
`n` in first-edge insertion order. -/
def Graph.predecessors (g : Graph ν δ) (n : ν) : List ν :=
  ((g.in_edges n).map Edge.src).dedup

/-- Modelled from the spec: `edges_between(a, b)`. -/
def Graph.edges_between (g : Graph ν δ) (a b : ν) : List (Edge ν δ) :=
  g.edges.filter (fun e => decide (e.src = a) && decide (e.dst = b))

/-- Modelled from the spec: `add_node(n)` appends `n` unless it is already
a node (ordered-dict key semantics). -/
def Graph.add_node (g : Graph ν δ) (n : ν) : Graph ν δ :=
  if n ∈ g.nodes then g else { g with nodes := g.nodes ++ [n] }

/-- Modelled from the spec: `add_nodes_from`. -/
def Graph.add_nodes_from (g : Graph ν δ) (l : List ν) : Graph ν δ :=
  l.foldl Graph.add_node g

/-- Modelled from the spec: `add_edge` appends the edge to the
insertion-ordered edge list. -/
def Graph.add_edge (g : Graph ν δ) (e : Edge ν δ) : Graph ν δ :=
  { g with edges := g.edges ++ [e] }

/-- Adding a list of edges in order (used for step 5.2 of
`replace_subgraph`, which re-adds each edge of `new` unchanged). -/
def Graph.add_edges (g : Graph ν δ) (l : List (Edge ν δ)) : Graph ν δ :=
  l.foldl Graph.add_edge g

/-- Modelled from the spec: `remove_edge(e)` removes the given edge (first
occurrence of the value in the edge list). -/
def Graph.remove_edge (g : Graph ν δ) (e : Edge ν δ) : Graph ν δ :=
  { g with edges := g.edges.erase e }

/-- Modelled from the spec: `remove_node(n)` removes the node and all of
its incident edges, so no dangling adjacency remains. -/
def Graph.remove_node (g : Graph ν δ) (n : ν) : Graph ν δ :=
  { nodes := g.nodes.filter (fun x => decide (x ≠ n)),
    edges := g.edges.filter (fun e => decide (e.src ≠ n) && decide (e.dst ≠ n)) }

/-- Modelled from the spec: `remove_nodes_from`. -/
def Graph.remove_nodes_from (g : Graph ν δ) (l : List ν) : Graph ν δ :=
  l.foldl Graph.remove_node g

/-- Translation of `nxutil.find_source_nodes`: the nodes with zero
in-degree, in node insertion order. -/
def find_source_nodes (g : Graph ν δ) : List ν :=
  g.nodes.filter (fun n => decide (g.in_degree n = 0))

/-- Translation of `nxutil.find_sink_nodes`: the nodes with zero
out-degree, in node insertion order. -/
def find_sink_nodes (g : Graph ν δ) : List ν :=
  g.nodes.filter (fun n => decide (g.out_degree n = 0))

/-- Translation of `nxutil.change_edge_dest`: for every edge whose
destination is `a` (snapshot of `in_edges a`), remove it and insert an
edge identical except that its destination is `b`.  Both the
`MultiConnectorEdge` and the plain branch of the Python code preserve all
remaining fields, which the single record update captures. -/
def change_edge_dest (g : Graph ν δ) (a b : ν) : Graph ν δ :=
  (g.in_edges a).foldl (fun acc e => (acc.remove_edge e).add_edge { e with dst := b }) g

/-- Translation of `nxutil.change_edge_src`: mirror of `change_edge_dest`
for edges whose source is `a`. -/
def change_edge_src (g : Graph ν δ) (a b : ν) : Graph ν δ :=
  (g.out_edges a).foldl (fun acc e => (acc.remove_edge e).add_edge { e with src := b }) g

/-- Translation of `nxutil.replace_subgraph`.  The four precondition
checks (unique source and sink of `old` and of `new`, computed within
their own edge sets) are performed before any mutation; the Python early
returns are rendered as one four-way match.  On success the function adds
the nodes and edges of `new`, redirects the boundary edges, and only then
removes the nodes of `old`. -/
def replace_subgraph (g old new : Graph ν δ) : Bool × Graph ν δ :=
  match find_source_nodes old, find_sink_nodes old,
        find_source_nodes new, find_sink_nodes new with
  | [old_source], [old_sink], [new_source], [new_sink] =>
    let g1 := g.add_nodes_from new.nodes
    let g2 := g1.add_edges new.edges
    let g3 := change_edge_dest g2 old_source new_source
    let g4 := change_edge_src g3 old_sink new_sink
    (true, g4.remove_nodes_from old.nodes)
  | _, _, _, _ => (false, g)

/-- The optional pruning predicate of `dfs_topological_sort`: `none` means
`condition is None` in the Python code, so descent is never pruned. -/
def condCheck (cond : Option (ν → ν → Bool)) (p c : ν) : Bool :=
  match cond with
  | none => true
  | some f => f p c

/-- Size of the explicit DFS stack: one unit per frame plus one per
not-yet-consumed child, the part of the termination measure that shrinks
when a frame pops or a child is consumed. -/
def stackWeight (st : List (ν × List ν)) : Nat :=
  (st.map (fun f => f.2.length + 1)).sum

/-- All node identities a run of the traversal can ever visit: the graph's
nodes, both endpoints of every edge, and the remaining start nodes.  Used
only for the termination measure. -/
def Graph.univFinset (g : Graph ν δ) (starts : List ν) : Finset ν :=
  g.nodes.toFinset ∪ ((g.edges.map Edge.src).toFinset ∪
    ((g.edges.map Edge.dst).toFinset ∪ starts.toFinset))

/-- The nodes still pending inside stack frames, part of the termination
measure. -/
def stackUniv (st : List (ν × List ν)) : Finset ν :=
  (st.map Prod.snd).flatten.toFinset

/-- The full termination measure set of the traversal loop. -/
def measureSet (g : Graph ν δ) (starts : List ν) (stack : List (ν × List ν))
    (visited : Finset ν) : Finset ν :=
  (g.univFinset starts ∪ stackUniv stack) \ visited

/-- Translation of the generator body of `nxutil.dfs_topological_sort`:
`starts` is the list of start nodes still to be processed, the stack holds
`(node, remaining-neighbors)` frames (a Python `(node, iterator)` pair with
the iterator concretised at push time), `visited` is the visited set.  The
stack is exhausted before the next start is taken, matching the Python
`for start in nodes` loop around the `while stack` loop. -/
def dfsTopoLoop (g : Graph ν δ) (cond : Option (ν → ν → Bool)) :
    List ν → List (ν × List ν) → Finset ν → List ν
  | starts, (parent, child :: cs) :: rest, visited =>
    if h : child ∈ visited then
      dfsTopoLoop g cond starts ((parent, cs) :: rest) visited
    else if (g.predecessors child).any (fun p => decide (p ∉ visited)) then
      dfsTopoLoop g cond starts ((parent, cs) :: rest) visited
    else if condCheck cond parent child then
      child :: dfsTopoLoop g cond starts
        ((child, g.neighbors child) :: (parent, cs) :: rest) (insert child visited)
    else
      dfsTopoLoop g cond starts ((parent, cs) :: rest) (insert child visited)
  | starts, (pnode, []) :: rest, visited => dfsTopoLoop g cond starts rest visited
  | start :: ss, [], visited =>
    if h : start ∈ visited then
      dfsTopoLoop g cond ss [] visited
    else
      start :: dfsTopoLoop g cond ss [(start, g.neighbors start)] (insert start visited)
  | [], [], _ => []
termination_by starts stack visited =>
  ((measureSet g starts stack visited).card, stackWeight stack + starts.length)
decreasing_by
  · have hsub : measureSet g starts ((parent, cs) :: rest) visited ⊆
        measureSet g starts ((parent, child :: cs) :: rest) visited := by
      apply Finset.sdiff_subset_sdiff _ (Finset.Subset.refl _)
      apply Finset.union_subset_union (Finset.Subset.refl _)
      have hs : stackUniv ((parent, cs) :: rest) = cs.toFinset ∪ stackUniv rest := by
        simp [stackUniv]
      have hs2 : stackUniv ((parent, child :: cs) :: rest) =
          insert child (cs.toFinset ∪ stackUniv rest) := by
        simp [stackUniv, List.toFinset_cons, Finset.insert_union]
      rw [hs, hs2]
      exact Finset.subset_insert _ _
    rcases lt_or_eq_of_le (Finset.card_le_card hsub) with hlt | heq
    · exact Prod.Lex.left _ _ hlt
    · rw [heq]
      apply Prod.Lex.right
      simp only [stackWeight, List.map_cons, List.sum_cons, List.length_cons]
      omega
  · have hsub : measureSet g starts ((parent, cs) :: rest) visited ⊆
        measureSet g starts ((parent, child :: cs) :: rest) visited := by
      apply Finset.sdiff_subset_sdiff _ (Finset.Subset.refl _)
      apply Finset.union_subset_union (Finset.Subset.refl _)
      have hs : stackUniv ((parent, cs) :: rest) = cs.toFinset ∪ stackUniv rest := by
        simp [stackUniv]
      have hs2 : stackUniv ((parent, child :: cs) :: rest) =
          insert child (cs.toFinset ∪ stackUniv rest) := by
        simp [stackUniv, List.toFinset_cons, Finset.insert_union]
      rw [hs, hs2]
      exact Finset.subset_insert _ _
    rcases lt_or_eq_of_le (Finset.card_le_card hsub) with hlt | heq
    · exact Prod.Lex.left _ _ hlt
    · rw [heq]
      apply Prod.Lex.right
      simp only [stackWeight, List.map_cons, List.sum_cons, List.length_cons]
      omega
  · apply Prod.Lex.left
    apply Finset.card_lt_card
    have hnb : ∀ n : ν, (g.neighbors n).toFinset ⊆ g.univFinset starts := by
      intro n x hx
      simp only [Graph.neighbors, Graph.out_edges, List.mem_toFinset, List.mem_dedup,
        List.mem_map, List.mem_filter] at hx
      obtain ⟨e, ⟨he, _⟩, rfl⟩ := hx
      simp only [Graph.univFinset, Finset.mem_union, List.mem_toFinset, List.mem_map]
      exact Or.inr (Or.inr (Or.inl ⟨e, he, rfl⟩))
    have hsub : measureSet g starts ((child, g.neighbors child) :: (parent, cs) :: rest)
        (insert child visited) ⊆
        measureSet g starts ((parent, child :: cs) :: rest) visited := by
      apply Finset.sdiff_subset_sdiff _ (Finset.subset_insert _ _)
      have hs : stackUniv ((child, g.neighbors child) :: (parent, cs) :: rest) =
          (g.neighbors child).toFinset ∪ (cs.toFinset ∪ stackUniv rest) := by
        simp [stackUniv, List.toFinset_append, Finset.union_assoc]
      have hs2 : stackUniv ((parent, child :: cs) :: rest) =
          insert child (cs.toFinset ∪ stackUniv rest) := by
        simp [stackUniv, List.toFinset_cons, Finset.insert_union]
      rw [hs, hs2]
      intro x hx
      simp only [Finset.mem_union] at hx ⊢
      rcases hx with hx | hx | hx | hx
      · exact Or.inl hx
      · exact Or.inl (hnb child hx)
      · exact Or.inr (Finset.mem_insert_of_mem (Finset.mem_union_left _ hx))
      · exact Or.inr (Finset.mem_insert_of_mem (Finset.mem_union_right _ hx))
    apply (Finset.ssubset_iff_of_subset hsub).mpr
    refine ⟨child, ?_, ?_⟩
    · simp only [measureSet, Finset.mem_sdiff, Finset.mem_union]
      refine ⟨Or.inr ?_, h⟩
      have hs2 : stackUniv ((parent, child :: cs) :: rest) =
          insert child (cs.toFinset ∪ stackUniv rest) := by
        simp [stackUniv, List.toFinset_cons, Finset.insert_union]
      rw [hs2]
      exact Finset.mem_insert_self _ _
    · simp [measureSet]
  · apply Prod.Lex.left
    apply Finset.card_lt_card
    have hsub : measureSet g starts ((parent, cs) :: rest) (insert child visited) ⊆
        measureSet g starts ((parent, child :: cs) :: rest) visited := by
      apply Finset.sdiff_subset_sdiff _ (Finset.subset_insert _ _)
      apply Finset.union_subset_union (Finset.Subset.refl _)
      have hs : stackUniv ((parent, cs) :: rest) = cs.toFinset ∪ stackUniv rest := by
        simp [stackUniv]
      have hs2 : stackUniv ((parent, child :: cs) :: rest) =
          insert child (cs.toFinset ∪ stackUniv rest) := by
        simp [stackUniv, List.toFinset_cons, Finset.insert_union]
      rw [hs, hs2]
      exact Finset.subset_insert _ _
    apply (Finset.ssubset_iff_of_subset hsub).mpr
    refine ⟨child, ?_, ?_⟩
    · simp only [measureSet, Finset.mem_sdiff, Finset.mem_union]
      refine ⟨Or.inr ?_, h⟩
      have hs2 : stackUniv ((parent, child :: cs) :: rest) =
          insert child (cs.toFinset ∪ stackUniv rest) := by
        simp [stackUniv, List.toFinset_cons, Finset.insert_union]
      rw [hs2]
      exact Finset.mem_insert_self _ _
    · simp [measureSet]
  · have hsub : measureSet g starts rest visited ⊆
        measureSet g starts ((pnode, []) :: rest) visited := by
      apply Finset.sdiff_subset_sdiff _ (Finset.Subset.refl _)
      apply Finset.union_subset_union (Finset.Subset.refl _)
      have hs : stackUniv ((pnode, ([] : List ν)) :: rest) = stackUniv rest := by
        simp [stackUniv]
      rw [hs]
    rcases lt_or_eq_of_le (Finset.card_le_card hsub) with hlt | heq
    · exact Prod.Lex.left _ _ hlt
    · rw [heq]
      apply Prod.Lex.right
      simp only [stackWeight, List.map_cons, List.sum_cons, List.length_cons]
      omega
  · have hsub : measureSet g ss [] visited ⊆
        measureSet g (start :: ss) [] visited := by
      apply Finset.sdiff_subset_sdiff _ (Finset.Subset.refl _)
      apply Finset.union_subset_union _ (Finset.Subset.refl _)
      apply Finset.union_subset_union (Finset.Subset.refl _)
      apply Finset.union_subset_union (Finset.Subset.refl _)
      apply Finset.union_subset_union (Finset.Subset.refl _)
      rw [List.toFinset_cons]
      exact Finset.subset_insert _ _
    rcases lt_or_eq_of_le (Finset.card_le_card hsub) with hlt | heq
    · exact Prod.Lex.left _ _ hlt
    · rw [heq]
      apply Prod.Lex.right
      simp only [stackWeight, List.length_cons, List.map_nil, List.sum_nil]
      omega
  · apply Prod.Lex.left
    apply Finset.card_lt_card
    have huniv : g.univFinset ss ⊆ g.univFinset (start :: ss) := by
      apply Finset.union_subset_union (Finset.Subset.refl _)
      apply Finset.union_subset_union (Finset.Subset.refl _)
      apply Finset.union_subset_union (Finset.Subset.refl _)
      rw [List.toFinset_cons]
      exact Finset.subset_insert _ _
    have hnb : (g.neighbors start).toFinset ⊆ g.univFinset (start :: ss) := by
      intro x hx
      simp only [Graph.neighbors, Graph.out_edges, List.mem_toFinset, List.mem_dedup,
        List.mem_map, List.mem_filter] at hx
      obtain ⟨e, ⟨he, _⟩, rfl⟩ := hx
      simp only [Graph.univFinset, Finset.mem_union, List.mem_toFinset, List.mem_map]
      exact Or.inr (Or.inr (Or.inl ⟨e, he, rfl⟩))
    have hsub : measureSet g ss [(start, g.neighbors start)] (insert start visited) ⊆
        measureSet g (start :: ss) [] visited := by
      apply Finset.sdiff_subset_sdiff _ (Finset.subset_insert _ _)
      have hs : stackUniv [(start, g.neighbors start)] = (g.neighbors start).toFinset := by
        simp [stackUniv]
      rw [hs]
      intro x hx
      simp only [Finset.mem_union] at hx
      rcases hx with hx | hx
      · exact Finset.mem_union_left _ (huniv hx)
      · exact Finset.mem_union_left _ (hnb hx)
    apply (Finset.ssubset_iff_of_subset hsub).mpr
    refine ⟨start, ?_, ?_⟩
    · simp only [measureSet, Finset.mem_sdiff, Finset.mem_union]
      refine ⟨Or.inl ?_, h⟩
      simp [Graph.univFinset]
    · simp [measureSet]

/-- Translation of `nxutil.dfs_topological_sort`.  `sources = none` models
the Python `sources=None` (walk every node of the graph in insertion
order); `sources = some l` models an explicit list of starting points (a
single non-iterable node is wrapped by the Python code into a one-element
list, here `some [n]`). -/
def dfs_topological_sort (g : Graph ν δ) (sources : Option (List ν))
    (condition : Option (ν → ν → Bool)) : List ν :=
  let starts := match sources with
    | none => g.nodes
    | some l => l
  dfsTopoLoop g condition starts [] ∅

/-- Translation of the `while stack` loop of `nxutil.depth_limited_search`,
instrumented with the list of nodes on which `evaluate()` is called, in call
order.  A frame of the Python stack holds `(node, cur_depth, children
iterator)`; here the loop is rendered as the equivalent recursion over the
remaining-children list of the top frame, with `budget = depth - 1 -
cur_depth` (the Python pushes a child frame exactly when `cur_depth <
depth - 1`, i.e. when `budget > 0`).  Each child popped from the iterator
is evaluated, compared strictly against the current candidate, and then
descended into before its next sibling is taken, which this recursion
reproduces exactly. -/
def dlsVisit (children : ν → List ν) (evaluate : ν → Int) :
    Nat → (ν × Int) → List ν → ((ν × Int) × List ν)
  | _, cand, [] => (cand, [])
  | budget, cand, c :: rest =>
    let v := evaluate c
    let cand1 := if v > cand.2 then (c, v) else cand
    let res1 := if h : 0 < budget then dlsVisit children evaluate (budget - 1) cand1 (children c)
                else (cand1, [])
    let res2 := dlsVisit children evaluate budget res1.1 rest
    (res2.1, c :: (res1.2 ++ res2.2))
termination_by budget cand l => (budget, l.length)
decreasing_by
  · exact Prod.Lex.left _ _ (Nat.sub_lt h Nat.one_pos)
  · apply Prod.Lex.right
    simp

/-- Translation of `nxutil.depth_limited_search`: evaluates the source,
returns it immediately at depth 0, and otherwise runs the explicit-stack
loop starting from the source's children with the source as the initial
candidate. -/
def depth_limited_search (children : ν → List ν) (evaluate : ν → Int)
    (source : ν) (depth : Nat) : ν × Int :=
  let value := evaluate source
  if depth = 0 then (source, value)
  else (dlsVisit children evaluate (depth - 1) (source, value) (children source)).1

/-- The nodes on which a run of `depth_limited_search` calls `evaluate()`,
in call order: the source first, then every child popped from a children
iterator (the instrumentation component of `dlsVisit`). -/
def dlsEvalTrace (children : ν → List ν) (evaluate : ν → Int)
    (source : ν) (depth : Nat) : List ν :=
  if depth = 0 then [source]
  else source :: (dlsVisit children evaluate (depth - 1)
    (source, evaluate source) (children source)).2

/-- Translation of the `while stack` loop of `nxutil.depth_limited_dfs_iter`
(same frame structure as `depth_limited_search`, but yielding each popped
child instead of evaluating it). -/
def dldIterVisit (children : ν → List ν) : Nat → List ν → List ν
  | _, [] => []
  | budget, c :: rest =>
    c :: ((if h : 0 < budget then dldIterVisit children (budget - 1) (children c)
           else []) ++ dldIterVisit children budget rest)
termination_by budget l => (budget, l.length)
decreasing_by
  · exact Prod.Lex.left _ _ (Nat.sub_lt h Nat.one_pos)
  · apply Prod.Lex.right
    simp

/-- Translation of `nxutil.depth_limited_dfs_iter`: at depth 0 the source
alone is yielded; otherwise the loop yields every child popped from a
children iterator (the source itself is never yielded in that branch). -/
def depth_limited_dfs_iter (children : ν → List ν) (source : ν)
    (depth : Nat) : List ν :=
  if depth = 0 then [source] else dldIterVisit children (depth - 1) (children source)

/-- The preorder listing of all child-paths of length at most `d` out of
`n`: `n` itself followed, for each child in order, by that child's listing
to depth `d - 1`.  A node reachable along several distinct paths occurs
once per path.  This is the specification-side description of the node
set explored by the two depth-limited traversals. -/
def reachWithin (children : ν → List ν) : Nat → ν → List ν
  | 0, n => [n]
  | d + 1, n => n :: (children n).flatMap (reachWithin children d)

/-- The candidate-update step of `depth_limited_search`: the candidate is
replaced only on a strictly greater value. -/
def updCand (evaluate : ν → Int) (cand : ν × Int) (c : ν) : ν × Int :=
  if evaluate c > cand.2 then (c, evaluate c) else cand

/-- The scope descriptor (`dace.graph.nodes.Map`): label, ordered iteration
parameters, iteration range, scheduling kind, and the three boolean flags.
Parameters are modelled as symbol names, the range as an opaque list of
range expressions, the schedule and debug info as opaque values. -/
structure MapData where
  label : String
  params : List String
  range : List String
  schedule : Nat
  unroll : Bool
  is_async : Bool
  flatten : Bool
  debuginfo : Option String
deriving DecidableEq, Repr

/-- A node of the connector-typed dataflow graph on which `merge_maps`
operates: a map entry, a map exit (each with an identity, its scope
descriptor and its connector sets), or any other node (opaque identity).
The `id` field models Python object identity, so that a freshly created
entry/exit is distinct from existing nodes. -/
inductive MNode where
  | mapEntry (id : Nat) (m : MapData) (inConns outConns : List String)
  | mapExit (id : Nat) (m : MapData) (inConns outConns : List String)
  | plain (id : Nat)
deriving DecidableEq, Repr

/-- The `.map` attribute of a map entry/exit node. -/
def MNode.mapData : MNode → Option MapData
  | .mapEntry _ m _ _ => some m
  | .mapExit _ m _ _ => some m
  | .plain _ => none

/-- The `.in_connectors` attribute (empty for non-scope nodes). -/
def MNode.inConnsOf : MNode → List String
  | .mapEntry _ _ i _ => i
  | .mapExit _ _ i _ => i
  | .plain _ => []

/-- The `.out_connectors` attribute (empty for non-scope nodes). -/
def MNode.outConnsOf : MNode → List String
  | .mapEntry _ _ _ o => o
  | .mapExit _ _ _ o => o
  | .plain _ => []

/-- Translation of `nxutil.merge_maps`.  `param_merge` and `range_merge`
are the caller-supplied merge policies (the Python defaults concatenate);
`entryId` and `exitId` stand for the identities of the two freshly
allocated Python node objects.  Failures of the Python code on
contract-violating input (an `IN_k` boundary connector with no matching
`OUT_k` inner edge, or a boundary edge without a destination connector)
are modelled as `none`; on success the new graph and the merged
entry/exit pair are returned.  The rewiring order is exactly that of the
source: inner in-edges, inner out-edges (whose snapshot of
`in_edges(inner_map_exit)` is taken after the first loop), outer
redirection, and finally removal of the four boundary nodes. -/
def merge_maps (g : Graph MNode δ) (outer_map_entry outer_map_exit
    inner_map_entry inner_map_exit : MNode)
    (param_merge : List String → List String → List String)
    (range_merge : List String → List String → List String)
    (entryId exitId : Nat) : Option (Graph MNode δ × MNode × MNode) := do
  let outer_map ← outer_map_entry.mapData
  let inner_map ← inner_map_entry.mapData
  let merged_map : MapData :=
    { label := "_merged_" ++ outer_map.label ++ "_" ++ inner_map.label,
      params := param_merge outer_map.params inner_map.params,
      range := range_merge outer_map.range inner_map.range,
      schedule := outer_map.schedule,
      unroll := outer_map.unroll,
      is_async := outer_map.is_async,
      flatten := outer_map.flatten,
      debuginfo := outer_map.debuginfo }
  let merged_entry := MNode.mapEntry entryId merged_map
    outer_map_entry.inConnsOf outer_map_entry.outConnsOf
  let merged_exit := MNode.mapExit exitId merged_map
    outer_map_exit.inConnsOf outer_map_exit.outConnsOf
  let g1 := g.add_nodes_from [merged_entry, merged_exit]
  let inner_in_edges := g1.out_edges inner_map_entry
  let g2 ← (g1.edges_between outer_map_entry inner_map_entry).foldlM
    (fun acc edge => do
      let dc ← edge.dstConn
      let out_conn := "OUT_" ++ dc.drop 3
      let inner_edge ← (inner_in_edges.filter
        (fun e => decide (e.srcConn = some out_conn))).head?
      let acc1 := (acc.remove_edge edge).remove_edge inner_edge
      pure (acc1.add_edge
        { src := merged_entry, dst := inner_edge.dst,
          conns := some (edge.srcConn, inner_edge.dstConn),
          data := inner_edge.data })) g1
  let inner_out_edges := g2.in_edges inner_map_exit
  let g3 ← (g2.edges_between inner_map_exit outer_map_exit).foldlM
    (fun acc edge => do
      let sc ← edge.srcConn
      let in_conn := "IN_" ++ sc.drop 4
      let inner_edge ← (inner_out_edges.filter
        (fun e => decide (e.dstConn = some in_conn))).head?
      let acc1 := (acc.remove_edge edge).remove_edge inner_edge
      pure (acc1.add_edge
        { src := inner_edge.src, dst := merged_exit,
          conns := some (inner_edge.srcConn, edge.dstConn),
          data := inner_edge.data })) g2
  let g4 := change_edge_dest g3 outer_map_entry merged_entry
  let g5 := change_edge_src g4 outer_map_exit merged_exit
  let g6 := g5.remove_nodes_from
    [outer_map_entry, outer_map_exit, inner_map_entry, inner_map_exit]
  pure (g6, merged_entry, merged_exit)

/-- A connector-less edge over `Nat` nodes with a `Nat` payload, used by
the concrete test fixtures below. -/
def ew (a b d : Nat) : Edge Nat Nat :=
  { src := a, dst := b, conns := none, data := d }

/-- Fixture: the path graph 0 → 1 → 2. -/
def gPath : Graph Nat Nat :=
  { nodes := [0, 1, 2], edges := [ew 0 1 10, ew 1 2 11] }

/-- Fixture: the single-node subgraph {1}. -/
def oldOne : Graph Nat Nat :=
  { nodes := [1], edges := [] }

/-- Fixture: the single-node subgraph {3}. -/
def newOne : Graph Nat Nat :=
  { nodes := [3], edges := [] }

/-- Fixture: the single-node subgraph {0} (overlaps `gArrow`). -/
def zeroOne : Graph Nat Nat :=
  { nodes := [0], edges := [] }

/-- Fixture: the single-edge graph 0 → 1. -/
def gArrow : Graph Nat Nat :=
  { nodes := [0, 1], edges := [ew 0 1 5] }

/-- Fixture: a two-node cycle, which has no zero-in-degree node. -/
def oldCyc : Graph Nat Nat :=
  { nodes := [0, 1], edges := [ew 0 1 0, ew 1 0 1] }

/-- Fixture: a graph with an edge 0 → 2 entering the interior of the
subgraph `oldBC` away from its source, breaking the round-trip property. -/
def gC4 : Graph Nat Nat :=
  { nodes := [0, 1, 2], edges := [ew 1 2 7, ew 0 2 8] }

/-- Fixture: the subgraph {1 → 2} of `gC4` (source 1, sink 2). -/
def oldBC : Graph Nat Nat :=
  { nodes := [1, 2], edges := [ew 1 2 7] }

/-- Fixture: children function of a two-node chain, 0 → 1. -/
def childA : Nat → List Nat :=
  fun n => if n = 0 then [1] else []

/-- Fixture: node 1 listed twice among the children of node 0 (two
parallel edges reaching the same shared node). -/
def childB : Nat → List Nat :=
  fun n => if n = 0 then [1, 1] else []

/-- Fixture: evaluation function returning the node identity. -/
def evalId : Nat → Int :=
  fun n => n

/-- Fixture: the outer scope descriptor (parameter `i`, range `0:N`). -/
def mapO : MapData :=
  { label := "outer", params := ["i"], range := ["0:N"], schedule := 0,
    unroll := false, is_async := false, flatten := false, debuginfo := none }

/-- Fixture: the inner scope descriptor (parameter `j`, range `0:M`). -/
def mapI : MapData :=
  { label := "inner", params := ["j"], range := ["0:M"], schedule := 0,
    unroll := false, is_async := false, flatten := false, debuginfo := none }

/-- Fixture: outer map entry node. -/
def omeW : MNode := MNode.mapEntry 0 mapO ["IN_0"] ["OUT_0"]

/-- Fixture: outer map exit node. -/
def omxW : MNode := MNode.mapExit 1 mapO ["IN_0"] ["OUT_0"]

/-- Fixture: inner map entry node. -/
def imeW : MNode := MNode.mapEntry 2 mapI ["IN_0"] ["OUT_0"]

/-- Fixture: inner map exit node. -/
def imxW : MNode := MNode.mapExit 3 mapI ["IN_0"] ["OUT_0"]

/-- Fixture: two immediately nested maps with a single pass-through
connector pair `IN_0`/`OUT_0` (the concrete scenario of the spec). -/
def gMaps : Graph MNode Nat :=
  { nodes := [omeW, omxW, imeW, imxW],
    edges :=
      [{ src := omeW, dst := imeW, conns := some (some "OUT_0", some "IN_0"), data := 100 },
       { src := imeW, dst := imxW, conns := some (some "OUT_0", some "IN_0"), data := 101 },
       { src := imxW, dst := omxW, conns := some (some "OUT_0", some "IN_0"), data := 102 }] }

/-- Fixture: the result of fusing the two maps of `gMaps` (for use as a
concrete witness of the `merge_maps` theorem). -/
def gMapsRes : Graph MNode Nat × MNode × MNode :=
  (merge_maps gMaps omeW omxW imeW imxW (fun a b => a ++ b) (fun a b => a ++ b)
    10 11).getD ({ nodes := [], edges := [] }, MNode.plain 0, MNode.plain 0)

theorem filter_erase_pos {α : Type} [DecidableEq α] (p : α → Bool) (a : α)
    (h : p a = true) : ∀ l : List α, (l.erase a).filter p = (l.filter p).erase a := by
  intro l
  induction l with
  | nil => rfl
  | cons b l ih =>
    by_cases hba : b = a
    · subst hba
      simp [List.erase_cons, List.filter_cons, h]
    · by_cases hpb : p b
      · simp [List.erase_cons, List.filter_cons, hba, hpb, ih]
      · simp [List.erase_cons, List.filter_cons, hba, hpb, ih]

theorem filter_erase_neg {α : Type} [DecidableEq α] (q : α → Bool) (a : α)
    (h : q a = false) : ∀ l : List α, (l.erase a).filter q = l.filter q := by
  intro l
  induction l with
  | nil => rfl
  | cons b l ih =>
    by_cases hba : b = a
    · subst hba
      simp [List.erase_cons, List.filter_cons, h]
    · by_cases hqb : q b
      · simp [List.erase_cons, List.filter_cons, hba, hqb, ih]
      · simp [List.erase_cons, List.filter_cons, hba, hqb, ih]

theorem redirect_fold_eq (tgt : Edge ν δ → Bool) (ret : Edge ν δ → Edge ν δ) :
    ∀ (S M R : List (Edge ν δ)) (nds : List ν), M.filter tgt = S →
    S.foldl (fun (acc : Graph ν δ) e => (acc.remove_edge e).add_edge (ret e))
        { nodes := nds, edges := M ++ R } =
      { nodes := nds, edges := M.filter (fun e => !(tgt e)) ++ (R ++ S.map ret) } := by
  intro S
  induction S with
  | nil =>
    intro M R nds hM
    have hall : ∀ e ∈ M, ¬ tgt e = true := by
      intro e he
      intro htgt
      have : e ∈ M.filter tgt := List.mem_filter.mpr ⟨he, htgt⟩
      rw [hM] at this
      exact absurd this (List.not_mem_nil e)
    have : M.filter (fun e => !(tgt e)) = M := by
      rw [List.filter_eq_self]
      intro e he
      simp [hall e he]
    simp [List.foldl_nil, this]
  | cons e S ih =>
    intro M R nds hM
    have hmemf : e ∈ M.filter tgt := by
      rw [hM]
      exact List.mem_cons_self e S
    have hmem : e ∈ M := (List.mem_filter.mp hmemf).1
    have htgt : tgt e = true := (List.mem_filter.mp hmemf).2
    have hstep : ((Graph.remove_edge { nodes := nds, edges := M ++ R } e).add_edge (ret e)) =
        { nodes := nds, edges := M.erase e ++ (R ++ [ret e]) } := by
      simp [Graph.remove_edge, Graph.add_edge, List.erase_append_left _ hmem,
        List.append_assoc]
    have hM2 : (M.erase e).filter tgt = S := by
      rw [filter_erase_pos tgt e htgt, hM, List.erase_cons_head]
    have ihx := ih (M.erase e) (R ++ [ret e]) nds hM2
    rw [List.foldl_cons, hstep, ihx, filter_erase_neg _ e (by simp [htgt]) M]
    simp [List.append_assoc]

theorem change_edge_dest_eq (g : Graph ν δ) (a b : ν) :
    change_edge_dest g a b =
      { nodes := g.nodes,
        edges := g.edges.filter (fun e => !(decide (e.dst = a))) ++
          (g.edges.filter (fun e => decide (e.dst = a))).map
            (fun e => { e with dst := b }) } := by
  have h := redirect_fold_eq (fun e => decide (e.dst = a))
    (fun e => { e with dst := b }) (g.in_edges a) g.edges [] g.nodes rfl
  simpa [change_edge_dest, Graph.in_edges] using h

theorem change_edge_src_eq (g : Graph ν δ) (a b : ν) :
    change_edge_src g a b =
      { nodes := g.nodes,
        edges := g.edges.filter (fun e => !(decide (e.src = a))) ++
          (g.edges.filter (fun e => decide (e.src = a))).map
            (fun e => { e with src := b }) } := by
  have h := redirect_fold_eq (fun e => decide (e.src = a))
    (fun e => { e with src := b }) (g.out_edges a) g.edges [] g.nodes rfl
  simpa [change_edge_src, Graph.out_edges] using h

theorem add_nodes_from_edges (g : Graph ν δ) (l : List ν) :
    (g.add_nodes_from l).edges = g.edges := by
  induction l generalizing g with
  | nil => rfl
  | cons n l ih =>
    rw [Graph.add_nodes_from, List.foldl_cons]
    have h2 : (g.add_node n).edges = g.edges := by
      rw [Graph.add_node]
      split
      · rfl
      · rfl
    rw [← Graph.add_nodes_from, ih, h2]

theorem add_nodes_from_mem (g : Graph ν δ) (l : List ν) (x : ν) :
    x ∈ (g.add_nodes_from l).nodes ↔ x ∈ g.nodes ∨ x ∈ l := by
  induction l generalizing g with
  | nil => simp [Graph.add_nodes_from]
  | cons n l ih =>
    rw [Graph.add_nodes_from, List.foldl_cons, ← Graph.add_nodes_from, ih]
    rw [Graph.add_node]
    split
    · rename_i hn
      simp only [List.mem_cons]
      constructor
      · rintro (h2 | h2)
        · exact Or.inl h2
        · exact Or.inr (Or.inr h2)
      · rintro (h2 | rfl | h2)
        · exact Or.inl h2
        · exact Or.inl hn
        · exact Or.inr h2
    · simp only [List.mem_append, List.mem_cons, List.not_mem_nil, or_false]
      tauto

theorem add_edges_eq (g : Graph ν δ) (l : List (Edge ν δ)) :
    g.add_edges l = { nodes := g.nodes, edges := g.edges ++ l } := by
  induction l generalizing g with
  | nil => simp [Graph.add_edges]
  | cons e l ih =>
    rw [Graph.add_edges, List.foldl_cons, ← Graph.add_edges, ih]
    simp [Graph.add_edge]

theorem remove_nodes_from_eq (g : Graph ν δ) (l : List ν) :
    g.remove_nodes_from l =
      { nodes := g.nodes.filter (fun x => !(decide (x ∈ l))),
        edges := g.edges.filter
          (fun e => !(decide (e.src ∈ l)) && !(decide (e.dst ∈ l))) } := by
  induction l generalizing g with
  | nil => simp [Graph.remove_nodes_from]
  | cons n l ih =>
    rw [Graph.remove_nodes_from, List.foldl_cons, ← Graph.remove_nodes_from, ih]
    rw [Graph.remove_node]
    congr 1
    · rw [List.filter_filter]
      apply List.filter_congr
      intro x _
      by_cases h1 : x = n <;> by_cases h2 : x ∈ l <;> simp [h1, h2]
    · rw [List.filter_filter]
      apply List.filter_congr
      intro e _
      by_cases h1 : e.src = n <;> by_cases h2 : e.dst = n <;>
        by_cases h3 : e.src ∈ l <;> by_cases h4 : e.dst ∈ l <;>
        simp [h1, h2, h3, h4]

/-- C6: `change_edge_dest graph node_a node_b` removes every edge whose
destination is `node_a` and inserts in its place an edge with the same
source, source connector, destination connector and payload but
destination `node_b` (first conjunct pair: the operation literally folds
a remove-then-add step over the snapshot of in-edges, and the resulting
edge list is exactly the non-matching edges plus the retargeted matching
edges, the record update changing only the destination field);
`change_edge_src` is the mirror for edges whose source is `node_a`; the
node list is untouched (mutation only of the edge structure, nothing
returned beyond it); and both are no-ops, not errors, when `node_a` has no
matching edges. -/
theorem C6_change_edge_redirect (g : Graph ν δ) (a b : ν) :
    (change_edge_dest g a b =
      (g.in_edges a).foldl
        (fun acc e => (acc.remove_edge e).add_edge { e with dst := b }) g) ∧
    (change_edge_dest g a b =
      { nodes := g.nodes,
        edges := g.edges.filter (fun e => !(decide (e.dst = a))) ++
          (g.edges.filter (fun e => decide (e.dst = a))).map
            (fun e => { e with dst := b }) }) ∧
    (change_edge_src g a b =
      (g.out_edges a).foldl
        (fun acc e => (acc.remove_edge e).add_edge { e with src := b }) g) ∧
    (change_edge_src g a b =
      { nodes := g.nodes,
        edges := g.edges.filter (fun e => !(decide (e.src = a))) ++
          (g.edges.filter (fun e => decide (e.src = a))).map
            (fun e => { e with src := b }) }) ∧
    (g.in_edges a = [] → change_edge_dest g a b = g) ∧
    (g.out_edges a = [] → change_edge_src g a b = g) := by
  refine ⟨rfl, change_edge_dest_eq g a b, rfl, change_edge_src_eq g a b, ?_, ?_⟩
  · intro h
    rw [change_edge_dest, h]
    rfl
  · intro h
    rw [change_edge_src, h]
    rfl

/-- C6 witness: on the concrete graph 0 → 1, redirecting edges around the
absent node 5 is a no-op in both directions. -/
theorem C6_change_edge_redirect_witness :
    change_edge_dest gArrow 5 7 = gArrow ∧ change_edge_src gArrow 5 7 = gArrow :=
  ⟨(C6_change_edge_redirect gArrow 5 7).2.2.2.2.1 (by decide),
   (C6_change_edge_redirect gArrow 5 7).2.2.2.2.2 (by decide)⟩

/-- C3: when `old` or `new` lacks a unique zero-in-degree node or a unique
zero-out-degree node (computed within its own edge set), `replace_subgraph`
returns `false` together with the graph completely unchanged; all four
precondition checks happen before any mutation, so the failure leaves the
input graph intact. -/
theorem C3_replace_subgraph_failure (g old new : Graph ν δ)
    (h : ¬((find_source_nodes old).length = 1 ∧ (find_sink_nodes old).length = 1 ∧
      (find_source_nodes new).length = 1 ∧ (find_sink_nodes new).length = 1)) :
    replace_subgraph g old new = (false, g) := by
  rw [replace_subgraph]
  split
  · rename_i os ok ns nk h1 h2 h3 h4
    exact absurd ⟨by rw [h1]; rfl, by rw [h2]; rfl, by rw [h3]; rfl, by rw [h4]; rfl⟩ h
  · rfl

/-- C3 witness: the two-node cycle has no zero-in-degree node, so replacing
it fails and the host graph is returned unchanged. -/
theorem C3_replace_subgraph_failure_witness :
    replace_subgraph gArrow oldCyc newOne = (false, gArrow) :=
  C3_replace_subgraph_failure gArrow oldCyc newOne (by decide)

/-- C2 counterexample: with `graph = old = new` the single-node graph {0}
(a legal pair: 0 is the unique source and unique sink of both subgraphs),
`replace_subgraph` returns `true` but the node of `new` is absent from the
result, because the nodes of `old` are removed after the nodes of `new`
are inserted and the two sets overlap; so the claim's conjunct "inserts
all nodes of new" fails as stated. -/
theorem C2_replace_subgraph_counterexample :
    (replace_subgraph zeroOne zeroOne zeroOne).1 = true ∧
    0 ∈ zeroOne.nodes ∧
    0 ∉ (replace_subgraph zeroOne zeroOne zeroOne).2.nodes := by
  decide

theorem mem_change_edge_dest (g : Graph ν δ) (a b : ν) (x : Edge ν δ) :
    x ∈ (change_edge_dest g a b).edges ↔
      ((x ∈ g.edges ∧ ¬x.dst = a) ∨
        (∃ e, e ∈ g.edges ∧ e.dst = a ∧ x = { e with dst := b })) := by
  rw [change_edge_dest_eq]
  simp only [List.mem_append, List.mem_filter, List.mem_map, Bool.not_eq_true',
    decide_eq_false_iff_not, decide_eq_true_eq]
  constructor
  · rintro (⟨hx, hd⟩ | ⟨e, ⟨he, hd⟩, rfl⟩)
    · exact Or.inl ⟨hx, hd⟩
    · exact Or.inr ⟨e, he, hd, rfl⟩
  · rintro (⟨hx, hd⟩ | ⟨e, he, hd, rfl⟩)
    · exact Or.inl ⟨hx, hd⟩
    · exact Or.inr ⟨e, ⟨he, hd⟩, rfl⟩

theorem mem_change_edge_src (g : Graph ν δ) (a b : ν) (x : Edge ν δ) :
    x ∈ (change_edge_src g a b).edges ↔
      ((x ∈ g.edges ∧ ¬x.src = a) ∨
        (∃ e, e ∈ g.edges ∧ e.src = a ∧ x = { e with src := b })) := by
  rw [change_edge_src_eq]
  simp only [List.mem_append, List.mem_filter, List.mem_map, Bool.not_eq_true',
    decide_eq_false_iff_not, decide_eq_true_eq]
  constructor
  · rintro (⟨hx, hd⟩ | ⟨e, ⟨he, hd⟩, rfl⟩)
    · exact Or.inl ⟨hx, hd⟩
    · exact Or.inr ⟨e, he, hd, rfl⟩
  · rintro (⟨hx, hd⟩ | ⟨e, he, hd, rfl⟩)
    · exact Or.inl ⟨hx, hd⟩
    · exact Or.inr ⟨e, ⟨he, hd⟩, rfl⟩

theorem nodes_change_edge_dest (g : Graph ν δ) (a b : ν) :
    (change_edge_dest g a b).nodes = g.nodes := by
  rw [change_edge_dest_eq]

theorem nodes_change_edge_src (g : Graph ν δ) (a b : ν) :
    (change_edge_src g a b).nodes = g.nodes := by
  rw [change_edge_src_eq]

theorem mem_remove_nodes_from_edges (g : Graph ν δ) (l : List ν) (x : Edge ν δ) :
    x ∈ (g.remove_nodes_from l).edges ↔ x ∈ g.edges ∧ x.src ∉ l ∧ x.dst ∉ l := by
  rw [remove_nodes_from_eq]
  simp [List.mem_filter, and_assoc]

theorem mem_remove_nodes_from_nodes (g : Graph ν δ) (l : List ν) (x : ν) :
    x ∈ (g.remove_nodes_from l).nodes ↔ x ∈ g.nodes ∧ x ∉ l := by
  rw [remove_nodes_from_eq]
  simp [List.mem_filter]

/-- C2 (amended): for subgraphs `old` and `new` with unique source and
sink, provided `new`'s nodes are disjoint from `old`'s, `new`'s edges run
between `new`'s nodes, and every boundary edge of the host graph (into
`old`'s source or out of `old`'s sink) has its other endpoint outside
`old`, `replace_subgraph` returns `true`; the result is literally the
redirect-then-remove composition (redirection happens before the removal
of `old`'s nodes); all nodes and edges of `new` are present; every edge
formerly incoming to `old`'s source is retargeted to `new`'s source with
the same source node, connectors and payload; every edge formerly outgoing
from `old`'s sink is retargeted to originate at `new`'s sink; all of
`old`'s nodes are gone; and every edge touching no node of `old` is left
unchanged. -/
theorem C2_replace_subgraph_success (g old new : Graph ν δ) (os ok ns nk : ν)
    (h1 : find_source_nodes old = [os])
    (h2 : find_sink_nodes old = [ok])
    (h3 : find_source_nodes new = [ns])
    (h4 : find_sink_nodes new = [nk])
    (hdisj : ∀ n ∈ new.nodes, n ∉ old.nodes)
    (hwfnew : ∀ e ∈ new.edges, e.src ∈ new.nodes ∧ e.dst ∈ new.nodes)
    (hin : ∀ e ∈ g.edges, e.dst = os → e.src ∉ old.nodes)
    (hout : ∀ e ∈ g.edges, e.src = ok → e.dst ∉ old.nodes) :
    (replace_subgraph g old new).1 = true ∧
    (replace_subgraph g old new).2 =
      (change_edge_src (change_edge_dest ((g.add_nodes_from new.nodes).add_edges new.edges)
        os ns) ok nk).remove_nodes_from old.nodes ∧
    (∀ n ∈ new.nodes, n ∈ (replace_subgraph g old new).2.nodes) ∧
    (∀ e ∈ new.edges, e ∈ (replace_subgraph g old new).2.edges) ∧
    (∀ e ∈ g.edges, e.dst = os →
      { e with dst := ns } ∈ (replace_subgraph g old new).2.edges) ∧
    (∀ e ∈ g.edges, e.src = ok →
      { e with src := nk } ∈ (replace_subgraph g old new).2.edges) ∧
    (∀ n ∈ old.nodes, n ∉ (replace_subgraph g old new).2.nodes) ∧
    (∀ e ∈ g.edges, e.src ∉ old.nodes → e.dst ∉ old.nodes →
      e ∈ (replace_subgraph g old new).2.edges) := by
  have hosl : os ∈ old.nodes := by
    have hm : os ∈ find_source_nodes old := by
      rw [h1]
      exact List.mem_cons_self os []
    exact (List.mem_filter.mp hm).1
  have hokl : ok ∈ old.nodes := by
    have hm : ok ∈ find_sink_nodes old := by
      rw [h2]
      exact List.mem_cons_self ok []
    exact (List.mem_filter.mp hm).1
  have hnsl : ns ∈ new.nodes := by
    have hm : ns ∈ find_source_nodes new := by
      rw [h3]
      exact List.mem_cons_self ns []
    exact (List.mem_filter.mp hm).1
  have hnkl : nk ∈ new.nodes := by
    have hm : nk ∈ find_sink_nodes new := by
      rw [h4]
      exact List.mem_cons_self nk []
    exact (List.mem_filter.mp hm).1
  have hredp : replace_subgraph g old new =
      (true, (change_edge_src (change_edge_dest
        ((g.add_nodes_from new.nodes).add_edges new.edges) os ns) ok nk).remove_nodes_from
        old.nodes) := by
    rw [replace_subgraph, h1, h2, h3, h4]
  have hE1 : ((g.add_nodes_from new.nodes).add_edges new.edges).edges =
      g.edges ++ new.edges := by
    rw [add_edges_eq, add_nodes_from_edges]
  have hmid : ∀ x : Edge ν δ,
      (x ∈ g.edges ∧ ¬x.dst = os ∧ ¬x.src = ok) ∨
      (∃ e, e ∈ g.edges ∧ e.dst = os ∧ x = { e with dst := ns }) ∨
      (∃ e, e ∈ g.edges ∧ e.src = ok ∧ x = { e with src := nk }) ∨
      (x ∈ new.edges) →
      x ∈ (change_edge_src (change_edge_dest
        ((g.add_nodes_from new.nodes).add_edges new.edges) os ns) ok nk).edges := by
    intro x hx
    rw [mem_change_edge_src]
    rcases hx with ⟨hg, hd, hs⟩ | ⟨e, he, hd, rfl⟩ | ⟨e, he, hs, rfl⟩ | hnew
    · left
      refine ⟨?_, hs⟩
      rw [mem_change_edge_dest]
      left
      exact ⟨by rw [hE1]; exact List.mem_append.mpr (Or.inl hg), hd⟩
    · left
      refine ⟨?_, ?_⟩
      · rw [mem_change_edge_dest]
        right
        exact ⟨e, by rw [hE1]; exact List.mem_append.mpr (Or.inl he), hd, rfl⟩
      · show ¬e.src = ok
        intro hsk
        exact hin e he hd (hsk ▸ hokl)
    · right
      refine ⟨e, ?_, hs, rfl⟩
      rw [mem_change_edge_dest]
      left
      refine ⟨by rw [hE1]; exact List.mem_append.mpr (Or.inl he), ?_⟩
      intro hdo
      exact hin e he hdo (hs ▸ hokl)
    · left
      have hsrc : x.src ∈ new.nodes := (hwfnew x hnew).1
      have hdst : x.dst ∈ new.nodes := (hwfnew x hnew).2
      refine ⟨?_, ?_⟩
      · rw [mem_change_edge_dest]
        left
        refine ⟨by rw [hE1]; exact List.mem_append.mpr (Or.inr hnew), ?_⟩
        intro hdo
        exact hdisj x.dst hdst (hdo ▸ hosl)
      · intro hsk
        exact hdisj x.src hsrc (hsk ▸ hokl)
  refine ⟨by rw [hredp], by rw [hredp], ?_, ?_, ?_, ?_, ?_, ?_⟩
  · intro n hn
    rw [hredp]
    rw [mem_remove_nodes_from_nodes]
    refine ⟨?_, hdisj n hn⟩
    rw [nodes_change_edge_src, nodes_change_edge_dest, add_edges_eq]
    exact (add_nodes_from_mem g new.nodes n).mpr (Or.inr hn)
  · intro e he
    rw [hredp, mem_remove_nodes_from_edges]
    refine ⟨hmid e (Or.inr (Or.inr (Or.inr he))), ?_, ?_⟩
    · exact hdisj e.src (hwfnew e he).1
    · exact hdisj e.dst (hwfnew e he).2
  · intro e he hd
    rw [hredp, mem_remove_nodes_from_edges]
    refine ⟨hmid _ (Or.inr (Or.inl ⟨e, he, hd, rfl⟩)), hin e he hd, hdisj ns hnsl⟩
  · intro e he hs
    rw [hredp, mem_remove_nodes_from_edges]
    refine ⟨hmid _ (Or.inr (Or.inr (Or.inl ⟨e, he, hs, rfl⟩))), hdisj nk hnkl,
      hout e he hs⟩
  · intro n hn
    rw [hredp, mem_remove_nodes_from_nodes]
    intro hcon
    exact hcon.2 hn
  · intro e he hs hd
    rw [hredp, mem_remove_nodes_from_edges]
    refine ⟨hmid e (Or.inl ⟨he, ?_, ?_⟩), hs, hd⟩
    · intro hdo
      exact hd (hdo ▸ hosl)
    · intro hsk
      exact hs (hsk ▸ hokl)

/-- C2 witness: replacing the middle node 1 of the path 0 → 1 → 2 by the
fresh node 3 succeeds and the incoming boundary edge is retargeted to 3
with its payload intact. -/
theorem C2_replace_subgraph_success_witness :
    (replace_subgraph gPath oldOne newOne).1 = true ∧
    ew 0 3 10 ∈ (replace_subgraph gPath oldOne newOne).2.edges := by
  have h := C2_replace_subgraph_success gPath oldOne newOne 1 1 3 3
    (by decide) (by decide) (by decide) (by decide) (by decide) (by decide)
    (by decide) (by decide)
  exact ⟨h.1, h.2.2.2.2.1 (ew 0 1 10) (by decide) (by decide)⟩

theorem source_mem (g : Graph ν δ) (s : ν) (h : find_source_nodes g = [s]) :
    s ∈ g.nodes := by
  have hm : s ∈ find_source_nodes g := by
    rw [h]
    exact List.mem_cons_self s []
  exact (List.mem_filter.mp hm).1

theorem sink_mem (g : Graph ν δ) (s : ν) (h : find_sink_nodes g = [s]) :
    s ∈ g.nodes := by
  have hm : s ∈ find_sink_nodes g := by
    rw [h]
    exact List.mem_cons_self s []
  exact (List.mem_filter.mp hm).1

theorem source_no_in (g : Graph ν δ) (s : ν) (h : find_source_nodes g = [s]) :
    ∀ e ∈ g.edges, ¬e.dst = s := by
  have hm : s ∈ find_source_nodes g := by
    rw [h]
    exact List.mem_cons_self s []
  have hdeg : g.in_degree s = 0 := by
    have := (List.mem_filter.mp hm).2
    simpa using this
  have hnil : g.in_edges s = [] := List.length_eq_zero.mp hdeg
  intro e he hd
  have : e ∈ g.in_edges s := List.mem_filter.mpr ⟨he, by simp [hd]⟩
  rw [hnil] at this
  exact absurd this (List.not_mem_nil e)

theorem sink_no_out (g : Graph ν δ) (s : ν) (h : find_sink_nodes g = [s]) :
    ∀ e ∈ g.edges, ¬e.src = s := by
  have hm : s ∈ find_sink_nodes g := by
    rw [h]
    exact List.mem_cons_self s []
  have hdeg : g.out_degree s = 0 := by
    have := (List.mem_filter.mp hm).2
    simpa using this
  have hnil : g.out_edges s = [] := List.length_eq_zero.mp hdeg
  intro e he hd
  have : e ∈ g.out_edges s := List.mem_filter.mpr ⟨he, by simp [hd]⟩
  rw [hnil] at this
  exact absurd this (List.not_mem_nil e)

theorem replace_subgraph_nodes_iff (g old new : Graph ν δ) (os ok ns nk : ν)
    (h1 : find_source_nodes old = [os]) (h2 : find_sink_nodes old = [ok])
    (h3 : find_source_nodes new = [ns]) (h4 : find_sink_nodes new = [nk])
    (x : ν) :
    x ∈ (replace_subgraph g old new).2.nodes ↔
      (x ∈ g.nodes ∨ x ∈ new.nodes) ∧ x ∉ old.nodes := by
  have hredp : replace_subgraph g old new =
      (true, (change_edge_src (change_edge_dest
        ((g.add_nodes_from new.nodes).add_edges new.edges) os ns) ok nk).remove_nodes_from
        old.nodes) := by
    rw [replace_subgraph, h1, h2, h3, h4]
  rw [hredp]
  simp only [mem_remove_nodes_from_nodes, nodes_change_edge_src, nodes_change_edge_dest,
    add_edges_eq, add_nodes_from_mem]

theorem replace_subgraph_edges_iff (g old new : Graph ν δ) (os ok ns nk : ν)
    (h1 : find_source_nodes old = [os]) (h2 : find_sink_nodes old = [ok])
    (h3 : find_source_nodes new = [ns]) (h4 : find_sink_nodes new = [nk])
    (hdisj : ∀ n ∈ new.nodes, n ∉ old.nodes)
    (hwfnew : ∀ e ∈ new.edges, e.src ∈ new.nodes ∧ e.dst ∈ new.nodes)
    (hin : ∀ e ∈ g.edges, e.dst = os → e.src ∉ old.nodes)
    (hout : ∀ e ∈ g.edges, e.src = ok → e.dst ∉ old.nodes)
    (x : Edge ν δ) :
    x ∈ (replace_subgraph g old new).2.edges ↔
      ((x ∈ g.edges ∧ x.src ∉ old.nodes ∧ x.dst ∉ old.nodes) ∨
       (x ∈ new.edges) ∨
       (∃ e, e ∈ g.edges ∧ e.dst = os ∧ x = { e with dst := ns }) ∨
       (∃ e, e ∈ g.edges ∧ e.src = ok ∧ x = { e with src := nk })) := by
  have hosl : os ∈ old.nodes := by
    have hm : os ∈ find_source_nodes old := by
      rw [h1]
      exact List.mem_cons_self os []
    exact (List.mem_filter.mp hm).1
  have hokl : ok ∈ old.nodes := by
    have hm : ok ∈ find_sink_nodes old := by
      rw [h2]
      exact List.mem_cons_self ok []
    exact (List.mem_filter.mp hm).1
  have hnsl : ns ∈ new.nodes := by
    have hm : ns ∈ find_source_nodes new := by
      rw [h3]
      exact List.mem_cons_self ns []
    exact (List.mem_filter.mp hm).1
  have hnkl : nk ∈ new.nodes := by
    have hm : nk ∈ find_sink_nodes new := by
      rw [h4]
      exact List.mem_cons_self nk []
    exact (List.mem_filter.mp hm).1
  have hredp : replace_subgraph g old new =
      (true, (change_edge_src (change_edge_dest
        ((g.add_nodes_from new.nodes).add_edges new.edges) os ns) ok nk).remove_nodes_from
        old.nodes) := by
    rw [replace_subgraph, h1, h2, h3, h4]
  have hE1 : ((g.add_nodes_from new.nodes).add_edges new.edges).edges =
      g.edges ++ new.edges := by
    rw [add_edges_eq, add_nodes_from_edges]
  rw [hredp]
  simp only [mem_remove_nodes_from_edges, mem_change_edge_src, mem_change_edge_dest, hE1,
    List.mem_append]
  constructor
  · rintro ⟨hces, hxs, hxd⟩
    rcases hces with ⟨hced, hsk⟩ | ⟨ep, hcedp, hsk, rfl⟩
    · rcases hced with ⟨hE, hdo⟩ | ⟨f, hf, hfd, rfl⟩
      · rcases hE with hE | hE
        · exact Or.inl ⟨hE, hxs, hxd⟩
        · exact Or.inr (Or.inl hE)
      · rcases hf with hf | hf
        · exact Or.inr (Or.inr (Or.inl ⟨f, hf, hfd, rfl⟩))
        · exact absurd (hfd ▸ hosl) (hdisj f.dst (hwfnew f hf).2)
    · rcases hcedp with ⟨hE, hdo⟩ | ⟨f, hf, hfd, rfl⟩
      · rcases hE with hE | hE
        · exact Or.inr (Or.inr (Or.inr ⟨ep, hE, hsk, rfl⟩))
        · exact absurd (hsk ▸ hokl) (hdisj ep.src (hwfnew ep hE).1)
      · rcases hf with hf | hf
        · exact absurd (hin f hf hfd) (fun hc => hc (hsk ▸ hokl))
        · exact absurd (hfd ▸ hosl) (hdisj f.dst (hwfnew f hf).2)
  · rintro (⟨hg, hs, hd⟩ | hnew | ⟨e, he, hd, rfl⟩ | ⟨e, he, hs, rfl⟩)
    · refine ⟨Or.inl ⟨Or.inl ⟨Or.inl hg, fun hc => hd (hc ▸ hosl)⟩,
        fun hc => hs (hc ▸ hokl)⟩, hs, hd⟩
    · have hnsrc : x.src ∈ new.nodes := (hwfnew x hnew).1
      have hndst : x.dst ∈ new.nodes := (hwfnew x hnew).2
      refine ⟨Or.inl ⟨Or.inl ⟨Or.inr hnew, ?_⟩, ?_⟩, hdisj x.src hnsrc, hdisj x.dst hndst⟩
      · intro hc
        exact hdisj x.dst hndst (hc ▸ hosl)
      · intro hc
        exact hdisj x.src hnsrc (hc ▸ hokl)
    · have hesrc : e.src ∉ old.nodes := hin e he hd
      refine ⟨Or.inl ⟨Or.inr ⟨e, Or.inl he, hd, rfl⟩, ?_⟩, ?_, ?_⟩
      · show ¬e.src = ok
        intro hc
        exact hesrc (hc ▸ hokl)
      · exact hesrc
      · exact hdisj ns hnsl
    · have hedst : e.dst ∉ old.nodes := hout e he hs
      refine ⟨Or.inr ⟨e, Or.inl ⟨Or.inl he, ?_⟩, hs, rfl⟩, hdisj nk hnkl, hedst⟩
      intro hc
      exact hedst (hc ▸ hosl)

/-- C4 (amended): splicing `new` in place of `old` and then `old` back in
place of `new` (boundary roles swapped) restores the original node set and
edge set, provided — beyond the unique source/sink of both subgraphs —
that `old` is a genuine subgraph of the host graph, `new` is fresh
(disjoint from the host's nodes), all three graphs are well formed (edge
endpoints among their nodes), and every host edge touching `old` is
either an edge of `old`, an edge into `old`'s source from outside `old`,
or an edge out of `old`'s sink to outside `old`.  Without the latter
condition connectivity is lost (see the counterexample). -/
theorem C4_replace_subgraph_round_trip (g old new : Graph ν δ) (os ok ns nk : ν)
    (h1 : find_source_nodes old = [os]) (h2 : find_sink_nodes old = [ok])
    (h3 : find_source_nodes new = [ns]) (h4 : find_sink_nodes new = [nk])
    (hwfg : ∀ e ∈ g.edges, e.src ∈ g.nodes ∧ e.dst ∈ g.nodes)
    (hwfold : ∀ e ∈ old.edges, e.src ∈ old.nodes ∧ e.dst ∈ old.nodes)
    (hwfnew : ∀ e ∈ new.edges, e.src ∈ new.nodes ∧ e.dst ∈ new.nodes)
    (hsubn : ∀ x ∈ old.nodes, x ∈ g.nodes)
    (hsube : ∀ e ∈ old.edges, e ∈ g.edges)
    (hfresh : ∀ x ∈ new.nodes, x ∉ g.nodes)
    (hbound : ∀ e ∈ g.edges, e.src ∈ old.nodes ∨ e.dst ∈ old.nodes →
      e ∈ old.edges ∨ (e.dst = os ∧ e.src ∉ old.nodes) ∨
        (e.src = ok ∧ e.dst ∉ old.nodes)) :
    (replace_subgraph g old new).1 = true ∧
    (replace_subgraph (replace_subgraph g old new).2 new old).1 = true ∧
    (∀ x, x ∈ (replace_subgraph (replace_subgraph g old new).2 new old).2.nodes ↔
      x ∈ g.nodes) ∧
    (∀ x, x ∈ (replace_subgraph (replace_subgraph g old new).2 new old).2.edges ↔
      x ∈ g.edges) := by
  have hosl : os ∈ old.nodes := source_mem old os h1
  have hnsl : ns ∈ new.nodes := source_mem new ns h3
  have hnkl : nk ∈ new.nodes := sink_mem new nk h4
  have hdisj : ∀ n ∈ new.nodes, n ∉ old.nodes :=
    fun n hn ho => hfresh n hn (hsubn n ho)
  have hin : ∀ e ∈ g.edges, e.dst = os → e.src ∉ old.nodes := by
    intro e he hd
    rcases hbound e he (Or.inr (hd ▸ hosl)) with hold | ⟨_, hs⟩ | ⟨_, hdo⟩
    · exact absurd hd (source_no_in old os h1 e hold)
    · exact hs
    · exact absurd (hd ▸ hosl) hdo
  have hout : ∀ e ∈ g.edges, e.src = ok → e.dst ∉ old.nodes := by
    intro e he hs
    rcases hbound e he (Or.inl (hs ▸ sink_mem old ok h2)) with hold | ⟨_, hso⟩ | ⟨_, hdo⟩
    · exact absurd hs (sink_no_out old ok h2 e hold)
    · exact absurd (hs ▸ sink_mem old ok h2) hso
    · exact hdo
  have hiff1 := replace_subgraph_edges_iff g old new os ok ns nk h1 h2 h3 h4
    hdisj hwfnew hin hout
  have hniff1 := replace_subgraph_nodes_iff g old new os ok ns nk h1 h2 h3 h4
  have hdisj2 : ∀ n ∈ old.nodes, n ∉ new.nodes := fun n hn h2n => hdisj n h2n hn
  have hin2 : ∀ e ∈ (replace_subgraph g old new).2.edges, e.dst = ns →
      e.src ∉ new.nodes := by
    intro e he hd
    rcases (hiff1 e).mp he with ⟨hg, _, _⟩ | hnew | ⟨f, hf, hfd, rfl⟩ | ⟨f, hf, hfs, rfl⟩
    · exact absurd (hd ▸ (hwfg e hg).2) (hfresh ns hnsl)
    · exact absurd hd (source_no_in new ns h3 e hnew)
    · intro hsn
      exact hfresh _ hsn ((hwfg f hf).1)
    · exact absurd (hd ▸ (hwfg f hf).2) (hfresh ns hnsl)
  have hout2 : ∀ e ∈ (replace_subgraph g old new).2.edges, e.src = nk →
      e.dst ∉ new.nodes := by
    intro e he hs
    rcases (hiff1 e).mp he with ⟨hg, _, _⟩ | hnew | ⟨f, hf, hfd, rfl⟩ | ⟨f, hf, hfs, rfl⟩
    · exact absurd (hs ▸ (hwfg e hg).1) (hfresh nk hnkl)
    · exact absurd hs (sink_no_out new nk h4 e hnew)
    · exact absurd (hs ▸ (hwfg f hf).1) (hfresh nk hnkl)
    · intro hdn
      exact hfresh _ hdn ((hwfg f hf).2)
  have hiff2 := replace_subgraph_edges_iff (replace_subgraph g old new).2 new old
    ns nk os ok h3 h4 h1 h2 hdisj2 hwfold hin2 hout2
  have hniff2 := replace_subgraph_nodes_iff (replace_subgraph g old new).2 new old
    ns nk os ok h3 h4 h1 h2
  refine ⟨by rw [replace_subgraph, h1, h2, h3, h4],
    by rw [replace_subgraph, h3, h4, h1, h2], ?_, ?_⟩
  · intro x
    rw [hniff2 x]
    constructor
    · rintro ⟨hor, hnn⟩
      rcases hor with hr1 | holld
      · rcases (hniff1 x).mp hr1 with ⟨hgn | hnew, _⟩
        · exact hgn
        · exact absurd hnew hnn
      · exact hsubn x holld
    · intro hx
      refine ⟨?_, fun hn => hfresh x hn hx⟩
      by_cases ho : x ∈ old.nodes
      · exact Or.inr ho
      · exact Or.inl ((hniff1 x).mpr ⟨Or.inl hx, ho⟩)
  · intro x
    rw [hiff2 x]
    constructor
    · rintro (⟨hr1, hsn, hdn⟩ | hold | ⟨f, hf, hfd, rfl⟩ | ⟨f, hf, hfs, rfl⟩)
      · rcases (hiff1 x).mp hr1 with ⟨hg, _, _⟩ | hnew | ⟨e, he, hed, rfl⟩ | ⟨e, he, hes, rfl⟩
        · exact hg
        · exact absurd (hwfnew x hnew).1 hsn
        · exact absurd hnsl hdn
        · exact absurd hnkl hsn
      · exact hsube x hold
      · rcases (hiff1 f).mp hf with ⟨hg, _, _⟩ | hnew | ⟨e, he, hed, rfl⟩ | ⟨e, he, hes, rfl⟩
        · exact absurd (hfd ▸ (hwfg f hg).2) (hfresh ns hnsl)
        · exact absurd hfd (source_no_in new ns h3 f hnew)
        · have hx : ({ { e with dst := ns } with dst := os } : Edge ν δ) = e := by
            cases e
            simp only at hed
            simp [hed]
          exact hx ▸ he
        · exact absurd (hfd ▸ (hwfg e he).2) (hfresh ns hnsl)
      · rcases (hiff1 f).mp hf with ⟨hg, _, _⟩ | hnew | ⟨e, he, hed, rfl⟩ | ⟨e, he, hes, rfl⟩
        · exact absurd (hfs ▸ (hwfg f hg).1) (hfresh nk hnkl)
        · exact absurd hfs (sink_no_out new nk h4 f hnew)
        · exact absurd (hfs ▸ (hwfg e he).1) (hfresh nk hnkl)
        · have hx : ({ { e with src := nk } with src := ok } : Edge ν δ) = e := by
            cases e
            simp only at hes
            simp [hes]
          exact hx ▸ he
    · intro he
      by_cases htouch : x.src ∈ old.nodes ∨ x.dst ∈ old.nodes
      · rcases hbound x he htouch with hold | ⟨hdo, hso⟩ | ⟨hsk, hdo⟩
        · exact Or.inr (Or.inl hold)
        · refine Or.inr (Or.inr (Or.inl ⟨{ x with dst := ns }, ?_, rfl, ?_⟩))
          · exact (hiff1 _).mpr (Or.inr (Or.inr (Or.inl ⟨x, he, hdo, rfl⟩)))
          · cases x
            simp only at hdo
            simp [hdo]
        · refine Or.inr (Or.inr (Or.inr ⟨{ x with src := nk }, ?_, rfl, ?_⟩))
          · exact (hiff1 _).mpr (Or.inr (Or.inr (Or.inr ⟨x, he, hsk, rfl⟩)))
          · cases x
            simp only at hsk
            simp [hsk]
      · push_neg at htouch
        refine Or.inl ⟨(hiff1 x).mpr (Or.inl ⟨he, htouch.1, htouch.2⟩), ?_, ?_⟩
        · exact fun hn => hfresh _ hn (hwfg x he).1
        · exact fun hn => hfresh _ hn (hwfg x he).2

/-- C4 counterexample: in `gC4` the edge 0 → 2 enters the interior of the
subgraph `oldBC = {1 → 2}` away from its unique source 1 (both `oldBC` and
the single-node `newOne` have unique source and sink, so the claim's
hypotheses hold).  Both splices succeed, yet the edge 0 → 2 of the
original graph is absent after the round trip: connectivity is not
restored. -/
theorem C4_replace_subgraph_round_trip_counterexample :
    (replace_subgraph gC4 oldBC newOne).1 = true ∧
    (replace_subgraph (replace_subgraph gC4 oldBC newOne).2 newOne oldBC).1 = true ∧
    ew 0 2 8 ∈ gC4.edges ∧
    ew 0 2 8 ∉
      (replace_subgraph (replace_subgraph gC4 oldBC newOne).2 newOne oldBC).2.edges := by
  decide

/-- C4 witness: round-tripping the middle node of the path 0 → 1 → 2
through the fresh node 3 and back preserves membership of the boundary
edge 0 → 1. -/
theorem C4_replace_subgraph_round_trip_witness :
    (replace_subgraph gPath oldOne newOne).1 = true ∧
    (replace_subgraph (replace_subgraph gPath oldOne newOne).2 newOne oldOne).1 = true ∧
    (ew 0 1 10 ∈
      (replace_subgraph (replace_subgraph gPath oldOne newOne).2 newOne oldOne).2.edges ↔
      ew 0 1 10 ∈ gPath.edges) := by
  have h := C4_replace_subgraph_round_trip gPath oldOne newOne 1 1 3 3
    (by decide) (by decide) (by decide) (by decide) (by decide) (by decide)
    (by decide) (by decide) (by decide) (by decide) (by decide)
  exact ⟨h.1, h.2.1, h.2.2.2 (ew 0 1 10)⟩

theorem dlsVisit_trace {α : Type} (children : α → List α) (evaluate : α → Int) :
    ∀ (budget : Nat) (cand : α × Int) (l : List α),
      (dlsVisit children evaluate budget cand l).2 =
        l.flatMap (reachWithin children budget) := by
  intro budget
  induction budget with
  | zero =>
    intro cand l
    induction l generalizing cand with
    | nil => simp [dlsVisit]
    | cons c rest ihl =>
      rw [dlsVisit]
      simp only [Nat.lt_irrefl, dite_false]
      rw [ihl]
      simp [reachWithin]
  | succ b ihb =>
    intro cand l
    induction l generalizing cand with
    | nil => simp [dlsVisit]
    | cons c rest ihl =>
      rw [dlsVisit]
      simp only [Nat.succ_pos, dite_true, Nat.succ_sub_one]
      rw [ihb, ihl]
      simp [reachWithin, List.flatMap_cons, List.append_assoc]

theorem dlsVisit_fst {α : Type} (children : α → List α) (evaluate : α → Int) :
    ∀ (budget : Nat) (cand : α × Int) (l : List α),
      (dlsVisit children evaluate budget cand l).1 =
        List.foldl (updCand evaluate) cand (l.flatMap (reachWithin children budget)) := by
  intro budget
  induction budget with
  | zero =>
    intro cand l
    induction l generalizing cand with
    | nil => simp [dlsVisit]
    | cons c rest ihl =>
      rw [dlsVisit]
      simp only [Nat.lt_irrefl, dite_false]
      rw [ihl]
      simp [reachWithin, updCand, List.flatMap_cons]
  | succ b ihb =>
    intro cand l
    induction l generalizing cand with
    | nil => simp [dlsVisit]
    | cons c rest ihl =>
      rw [dlsVisit]
      simp only [Nat.succ_pos, dite_true, Nat.succ_sub_one]
      rw [ihl, ihb]
      simp [reachWithin, updCand, List.flatMap_cons, List.foldl_append]

theorem foldl_updCand_le_snd {α : Type} (evaluate : α → Int) :
    ∀ (l : List α) (cand : α × Int),
      cand.2 ≤ (List.foldl (updCand evaluate) cand l).2 := by
  intro l
  induction l with
  | nil => simp
  | cons c rest ih =>
    intro cand
    rw [List.foldl_cons]
    refine le_trans ?_ (ih (updCand evaluate cand c))
    rw [updCand]
    split
    · exact le_of_lt (by assumption)
    · exact le_refl _

theorem foldl_updCand_mem_le {α : Type} (evaluate : α → Int) :
    ∀ (l : List α) (cand : α × Int) (m : α), m ∈ l →
      evaluate m ≤ (List.foldl (updCand evaluate) cand l).2 := by
  intro l
  induction l with
  | nil =>
    intro cand m hm
    exact absurd hm (List.not_mem_nil m)
  | cons c rest ih =>
    intro cand m hm
    rw [List.foldl_cons]
    rcases List.mem_cons.mp hm with rfl | hm
    · refine le_trans ?_ (foldl_updCand_le_snd evaluate rest (updCand evaluate cand m))
      rw [updCand]
      split
      · exact le_refl _
      · exact le_of_not_lt (by assumption)
    · exact ih (updCand evaluate cand c) m hm

theorem foldl_updCand_first {α : Type} (evaluate : α → Int) :
    ∀ (l : List α) (cand : α × Int),
      (List.foldl (updCand evaluate) cand l = cand ∧ ∀ m ∈ l, evaluate m ≤ cand.2) ∨
      (∃ l1 m l2, l = l1 ++ m :: l2 ∧
        List.foldl (updCand evaluate) cand l = (m, evaluate m) ∧
        (∀ y ∈ l1, evaluate y < evaluate m) ∧ cand.2 < evaluate m) := by
  intro l
  induction l with
  | nil =>
    intro cand
    left
    exact ⟨rfl, by simp⟩
  | cons c rest ih =>
    intro cand
    by_cases hc : evaluate c > cand.2
    · have hstep : List.foldl (updCand evaluate) cand (c :: rest) =
          List.foldl (updCand evaluate) (c, evaluate c) rest := by
        rw [List.foldl_cons, updCand, if_pos hc]
      rcases ih (c, evaluate c) with ⟨heq, hall⟩ | ⟨l1, m, l2, hsplit, heq, hlt, hcand⟩
      · right
        exact ⟨[], c, rest, by simp, by rw [hstep, heq], by simp, hc⟩
      · right
        refine ⟨c :: l1, m, l2, by simp [hsplit], by rw [hstep, heq], ?_,
          lt_trans hc hcand⟩
        intro y hy
        rcases List.mem_cons.mp hy with rfl | hy
        · exact hcand
        · exact hlt y hy
    · have hstep : List.foldl (updCand evaluate) cand (c :: rest) =
          List.foldl (updCand evaluate) cand rest := by
        rw [List.foldl_cons, updCand, if_neg hc]
      push_neg at hc
      rcases ih cand with ⟨heq, hall⟩ | ⟨l1, m, l2, hsplit, heq, hlt, hcand⟩
      · left
        refine ⟨by rw [hstep, heq], ?_⟩
        intro m hm
        rcases List.mem_cons.mp hm with rfl | hm
        · exact hc
        · exact hall m hm
      · right
        refine ⟨c :: l1, m, l2, by simp [hsplit], by rw [hstep, heq], ?_, hcand⟩
        intro y hy
        rcases List.mem_cons.mp hy with rfl | hy
        · exact lt_of_le_of_lt hc hcand
        · exact hlt y hy

theorem depth_limited_search_foldl {α : Type} (children : α → List α)
    (evaluate : α → Int) (n : α) (d : Nat) :
    depth_limited_search children evaluate n d =
      List.foldl (updCand evaluate) (n, evaluate n)
        ((reachWithin children d n).drop 1) := by
  cases d with
  | zero => simp [depth_limited_search, reachWithin]
  | succ b =>
    rw [depth_limited_search]
    simp only [Nat.succ_ne_zero, if_false, Nat.succ_sub_one]
    rw [dlsVisit_fst]
    simp [reachWithin]

theorem reachWithin_head {α : Type} (children : α → List α) (n : α) (d : Nat) :
    reachWithin children d n = n :: (reachWithin children d n).drop 1 := by
  cases d with
  | zero => rfl
  | succ b => rfl

/-- C7: `depth_limited_search(n, 0)` returns `(n, n.evaluate())`; for every
depth `d` the returned value is greater than or equal to the evaluation of
every node reachable from `n` within `d` edges (the preorder listing
`reachWithin`), the returned pair consists of a reachable node together
with its own evaluation (hence the value is the maximum over the reachable
set), and ties are broken by first-seen order: in the preorder evaluation
sequence every node strictly before the returned one evaluates strictly
below the returned value (the candidate is only replaced on a strictly
greater value). -/
theorem C7_depth_limited_search_max {α : Type} (children : α → List α)
    (evaluate : α → Int) (n : α) :
    (depth_limited_search children evaluate n 0 = (n, evaluate n)) ∧
    (∀ d, ∀ m ∈ reachWithin children d n,
      evaluate m ≤ (depth_limited_search children evaluate n d).2) ∧
    (∀ d, (depth_limited_search children evaluate n d).1 ∈ reachWithin children d n ∧
      evaluate (depth_limited_search children evaluate n d).1 =
        (depth_limited_search children evaluate n d).2) ∧
    (∀ d, ∃ l1 l2, reachWithin children d n =
      l1 ++ (depth_limited_search children evaluate n d).1 :: l2 ∧
      ∀ y ∈ l1, evaluate y < (depth_limited_search children evaluate n d).2) := by
  refine ⟨rfl, ?_, ?_, ?_⟩
  · intro d m hm
    rw [depth_limited_search_foldl]
    rw [reachWithin_head children n d] at hm
    rcases List.mem_cons.mp hm with rfl | hm
    · exact foldl_updCand_le_snd evaluate _ (m, evaluate m)
    · exact foldl_updCand_mem_le evaluate _ (n, evaluate n) m hm
  · intro d
    rw [depth_limited_search_foldl]
    rcases foldl_updCand_first evaluate ((reachWithin children d n).drop 1)
      (n, evaluate n) with ⟨heq, _⟩ | ⟨l1, m, l2, hsplit, heq, _, _⟩
    · rw [heq]
      refine ⟨?_, rfl⟩
      rw [reachWithin_head children n d]
      exact List.mem_cons_self n _
    · rw [heq]
      refine ⟨?_, rfl⟩
      rw [reachWithin_head children n d, hsplit]
      simp
  · intro d
    rw [depth_limited_search_foldl]
    rcases foldl_updCand_first evaluate ((reachWithin children d n).drop 1)
      (n, evaluate n) with ⟨heq, _⟩ | ⟨l1, m, l2, hsplit, heq, hlt, hcand⟩
    · refine ⟨[], (reachWithin children d n).drop 1, ?_, by simp⟩
      rw [heq]
      simpa using reachWithin_head children n d
    · refine ⟨n :: l1, l2, ?_, ?_⟩
      · rw [heq]
        rw [reachWithin_head children n d, hsplit]
        simp
      · rw [heq]
        intro y hy
        rcases List.mem_cons.mp hy with rfl | hy
        · exact hcand
        · exact hlt y hy

/-- C7 witness: on the chain 0 → 1 with identity evaluation, at depth 1
the reachable node 1 is indeed bounded by the returned value, and the
search at depth 0 returns the source with its own evaluation. -/
theorem C7_depth_limited_search_max_witness :
    depth_limited_search childA evalId 0 0 = (0, evalId 0) ∧
    evalId 1 ≤ (depth_limited_search childA evalId 0 1).2 :=
  ⟨(C7_depth_limited_search_max childA evalId 0).1,
   (C7_depth_limited_search_max childA evalId 0).2.1 1 1 (by decide)⟩

theorem dldIterVisit_eq {α : Type} (children : α → List α) :
    ∀ (budget : Nat) (l : List α),
      dldIterVisit children budget l = l.flatMap (reachWithin children budget) := by
  intro budget
  induction budget with
  | zero =>
    intro l
    induction l with
    | nil => simp [dldIterVisit]
    | cons c rest ihl =>
      rw [dldIterVisit]
      simp only [Nat.lt_irrefl, dite_false]
      rw [ihl]
      simp [reachWithin, List.flatMap_cons]
  | succ b ihb =>
    intro l
    induction l with
    | nil => simp [dldIterVisit]
    | cons c rest ihl =>
      rw [dldIterVisit]
      simp only [Nat.succ_pos, dite_true, Nat.succ_sub_one]
      rw [ihb, ihl]
      simp [reachWithin, List.flatMap_cons, List.append_assoc]

/-- C8 counterexample: with one child 1 under the source 0, the iterator at
depth 1 yields only `[1]`, while the set of nodes reachable from 0 within
1 edge contains 0 itself; so the sequence does not enumerate the reachable
set as claimed (the source is omitted whenever depth ≥ 1). -/
theorem C8_depth_limited_dfs_iter_counterexample :
    depth_limited_dfs_iter childA 0 1 = [1] ∧
    0 ∈ reachWithin childA 1 0 ∧
    0 ∉ depth_limited_dfs_iter childA 0 1 := by
  have he : depth_limited_dfs_iter childA 0 1 = [1] := by
    rw [depth_limited_dfs_iter, if_neg (by decide), dldIterVisit_eq]
    decide
  refine ⟨he, by decide, ?_⟩
  rw [he]
  decide

/-- C8 (amended): at depth 0 the iterator yields exactly the source; at
every depth `d ≥ 1` it yields exactly the preorder listing of the nodes
reached by nonempty child-paths of length at most `d` — the tail of
`reachWithin`, with the leading source dropped (and one occurrence per
path, so shared nodes may repeat). -/
theorem C8_depth_limited_dfs_iter_enum {α : Type} (children : α → List α)
    (source : α) :
    depth_limited_dfs_iter children source 0 = [source] ∧
    ∀ d, 0 < d → depth_limited_dfs_iter children source d =
      (reachWithin children d source).drop 1 := by
  refine ⟨rfl, ?_⟩
  intro d hd
  cases d with
  | zero => exact absurd hd (Nat.lt_irrefl 0)
  | succ b =>
    rw [depth_limited_dfs_iter]
    simp only [Nat.succ_ne_zero, if_false, Nat.succ_sub_one]
    rw [dldIterVisit_eq]
    simp [reachWithin]

/-- C8 witness: the amended enumeration equation instantiated on the
concrete chain 0 → 1 at depth 1. -/
theorem C8_depth_limited_dfs_iter_enum_witness :
    depth_limited_dfs_iter childA 0 1 = (reachWithin childA 1 0).drop 1 :=
  (C8_depth_limited_dfs_iter_enum childA 0).2 1 (by decide)

theorem dlsEvalTrace_eq {α : Type} (children : α → List α) (evaluate : α → Int)
    (n : α) (d : Nat) :
    dlsEvalTrace children evaluate n d = reachWithin children d n := by
  cases d with
  | zero => rfl
  | succ b =>
    rw [dlsEvalTrace]
    simp only [Nat.succ_ne_zero, if_false, Nat.succ_sub_one]
    rw [dlsVisit_trace]
    rfl

/-- C9 counterexample: when node 1 occurs twice among the children of the
source 0 (two parallel paths to a shared node), `depth_limited_search`
evaluates node 1 twice during one run at depth 1 — there is no memoisation
of `evaluate()` in the loop — so "at most once per node" fails. -/
theorem C9_depth_limited_search_eval_once_counterexample :
    (dlsEvalTrace childB evalId 0 1).count 1 = 2 ∧
    ¬((dlsEvalTrace childB evalId 0 1).count 1 ≤ 1) := by
  simp only [dlsEvalTrace_eq]
  decide

/-- C9 (amended): a run of `depth_limited_search(n, d)` calls `evaluate()`
exactly once per entry of the preorder path listing `reachWithin d n`
(once for the source and once per child popped from an iterator); in
particular, whenever that listing is duplicate-free — each reachable node
is reached by a unique child-path, as in a tree — no node is evaluated
more than once. -/
theorem C9_depth_limited_search_eval_once {α : Type} [DecidableEq α]
    (children : α → List α) (evaluate : α → Int) (n : α) (d : Nat) :
    dlsEvalTrace children evaluate n d = reachWithin children d n ∧
    ((reachWithin children d n).Nodup →
      ∀ m, (dlsEvalTrace children evaluate n d).count m ≤ 1) := by
  refine ⟨dlsEvalTrace_eq children evaluate n d, ?_⟩
  intro hnd m
  rw [dlsEvalTrace_eq]
  exact List.nodup_iff_count_le_one.mp hnd m

/-- C9 witness: on the duplicate-free chain 0 → 1, the evaluation count of
node 1 during a depth-1 search is at most one. -/
theorem C9_depth_limited_search_eval_once_witness :
    (dlsEvalTrace childA evalId 0 1).count 1 ≤ 1 :=
  (C9_depth_limited_search_eval_once childA evalId 0 1).2 (by decide) 1

theorem dfsTopoLoop_not_visited (g : Graph ν δ) (cond : Option (ν → ν → Bool)) :
    ∀ (ss : List ν) (st : List (ν × List ν)) (vis : Finset ν),
      ∀ n ∈ dfsTopoLoop g cond ss st vis, n ∉ vis := by
  intro ss st vis
  induction ss, st, vis using dfsTopoLoop.induct g cond with
  | case1 starts parent child cs rest visited h ih =>
    intro n hn
    rw [dfsTopoLoop, dif_pos h] at hn
    exact ih n hn
  | case2 starts parent child cs rest visited h h2 ih =>
    intro n hn
    rw [dfsTopoLoop, dif_neg h, if_pos h2] at hn
    exact ih n hn
  | case3 starts parent child cs rest visited h h2 h3 ih =>
    intro n hn
    rw [dfsTopoLoop, dif_neg h, if_neg h2, if_pos h3] at hn
    rcases List.mem_cons.mp hn with rfl | hn
    · exact h
    · intro hc
      exact ih n hn (Finset.mem_insert_of_mem hc)
  | case4 starts parent child cs rest visited h h2 h3 ih =>
    intro n hn
    rw [dfsTopoLoop, dif_neg h, if_neg h2, if_neg h3] at hn
    intro hc
    exact ih n hn (Finset.mem_insert_of_mem hc)
  | case5 starts pnode rest visited ih =>
    intro n hn
    rw [dfsTopoLoop] at hn
    exact ih n hn
  | case6 start ss visited h ih =>
    intro n hn
    rw [dfsTopoLoop, dif_pos h] at hn
    exact ih n hn
  | case7 start ss visited h ih =>
    intro n hn
    rw [dfsTopoLoop, dif_neg h] at hn
    rcases List.mem_cons.mp hn with rfl | hn
    · exact h
    · intro hc
      exact ih n hn (Finset.mem_insert_of_mem hc)
  | case8 visited =>
    intro n hn
    rw [dfsTopoLoop] at hn
    exact absurd hn (List.not_mem_nil n)

theorem dfsTopoLoop_nodup (g : Graph ν δ) (cond : Option (ν → ν → Bool)) :
    ∀ (ss : List ν) (st : List (ν × List ν)) (vis : Finset ν),
      (dfsTopoLoop g cond ss st vis).Nodup := by
  intro ss st vis
  induction ss, st, vis using dfsTopoLoop.induct g cond with
  | case1 starts parent child cs rest visited h ih =>
    rw [dfsTopoLoop, dif_pos h]
    exact ih
  | case2 starts parent child cs rest visited h h2 ih =>
    rw [dfsTopoLoop, dif_neg h, if_pos h2]
    exact ih
  | case3 starts parent child cs rest visited h h2 h3 ih =>
    rw [dfsTopoLoop, dif_neg h, if_neg h2, if_pos h3]
    refine List.nodup_cons.mpr ⟨?_, ih⟩
    intro hc
    exact dfsTopoLoop_not_visited g cond _ _ _ child hc (Finset.mem_insert_self child visited)
  | case4 starts parent child cs rest visited h h2 h3 ih =>
    rw [dfsTopoLoop, dif_neg h, if_neg h2, if_neg h3]
    exact ih
  | case5 starts pnode rest visited ih =>
    rw [dfsTopoLoop]
    exact ih
  | case6 start ss visited h ih =>
    rw [dfsTopoLoop, dif_pos h]
    exact ih
  | case7 start ss visited h ih =>
    rw [dfsTopoLoop, dif_neg h]
    refine List.nodup_cons.mpr ⟨?_, ih⟩
    intro hc
    exact dfsTopoLoop_not_visited g cond _ _ _ start hc (Finset.mem_insert_self start visited)
  | case8 visited =>
    rw [dfsTopoLoop]
    exact List.nodup_nil

theorem dfsTopoLoop_pred_earlier (g : Graph ν δ) :
    ∀ (ss : List ν) (st : List (ν × List ν)) (vis : Finset ν) (n p : ν),
      n ∈ dfsTopoLoop g none ss st vis → n ∉ ss → p ∈ g.predecessors n →
      p ∈ vis ∨ [p, n].Sublist (dfsTopoLoop g none ss st vis) := by
  intro ss st vis
  induction ss, st, vis using dfsTopoLoop.induct g none with
  | case1 starts parent child cs rest visited h ih =>
    intro n p hn hns hp
    rw [dfsTopoLoop, dif_pos h] at hn ⊢
    exact ih n p hn hns hp
  | case2 starts parent child cs rest visited h h2 ih =>
    intro n p hn hns hp
    rw [dfsTopoLoop, dif_neg h, if_pos h2] at hn ⊢
    exact ih n p hn hns hp
  | case3 starts parent child cs rest visited h h2 h3 ih =>
    intro n p hn hns hp
    rw [dfsTopoLoop, dif_neg h, if_neg h2, if_pos h3] at hn ⊢
    have hall : ∀ x ∈ g.predecessors child, x ∈ visited := by
      intro x hx
      by_contra hxv
      exact h2 (List.any_eq_true.mpr ⟨x, hx, by simpa using hxv⟩)
    rcases List.mem_cons.mp hn with rfl | hn
    · exact Or.inl (hall p hp)
    · rcases ih n p hn hns hp with hv | hs
      · rcases Finset.mem_insert.mp hv with rfl | hv
        · exact Or.inr (List.Sublist.cons₂ p (List.singleton_sublist.mpr hn))
        · exact Or.inl hv
      · exact Or.inr (List.Sublist.cons child hs)
  | case4 starts parent child cs rest visited h h2 h3 ih =>
    exact absurd rfl h3
  | case5 starts pnode rest visited ih =>
    intro n p hn hns hp
    rw [dfsTopoLoop] at hn ⊢
    exact ih n p hn hns hp
  | case6 start ss visited h ih =>
    intro n p hn hns hp
    rw [dfsTopoLoop, dif_pos h] at hn ⊢
    exact ih n p hn (fun hc => hns (List.mem_cons_of_mem start hc)) hp
  | case7 start ss visited h ih =>
    intro n p hn hns hp
    rw [dfsTopoLoop, dif_neg h] at hn ⊢
    rcases List.mem_cons.mp hn with rfl | hn
    · exact absurd (List.mem_cons_self n ss) hns
    · rcases ih n p hn (fun hc => hns (List.mem_cons_of_mem start hc)) hp with hv | hs
      · rcases Finset.mem_insert.mp hv with rfl | hv
        · exact Or.inr (List.Sublist.cons₂ p (List.singleton_sublist.mpr hn))
        · exact Or.inl hv
      · exact Or.inr (List.Sublist.cons start hs)
  | case8 visited =>
    intro n p hn hns hp
    rw [dfsTopoLoop] at hn
    exact absurd hn (List.not_mem_nil n)

/-- C1 (amended): for every directed graph and every source list, every
node emitted by `dfs_topological_sort(G, S)` that is not itself one of the
given sources has each of its predecessors (by in-edge) emitted strictly
earlier in the sequence (`[p, n]` is a sublist of the emission sequence,
which is duplicate-free).  The predecessor gate guarantees this for every
non-source emission unconditionally — acyclicity is not needed for the
invariant itself; source nodes, however, are emitted without any
predecessor check (see the counterexample). -/
theorem C1_dfs_topological_sort_pred_earlier (g : Graph ν δ) (sources : List ν)
    (n p : ν) (hn : n ∈ dfs_topological_sort g (some sources) none)
    (hns : n ∉ sources) (hp : p ∈ g.predecessors n) :
    [p, n].Sublist (dfs_topological_sort g (some sources) none) := by
  have h := dfsTopoLoop_pred_earlier g sources [] ∅ n p hn hns hp
  rcases h with hv | hs
  · exact absurd hv (Finset.not_mem_empty p)
  · exact hs

/-- C1 counterexample: in the graph 0 → 1 (acyclic, so in particular its
restriction to the nodes reachable from the source set is acyclic), the
call with source set `[1]` emits exactly `[1]`: node 1 is emitted although
its predecessor 0 is never emitted, because a start node is yielded
without any predecessor check.  This refutes the claim as stated for
arbitrary source sets. -/
theorem C1_dfs_topological_sort_pred_counterexample :
    dfs_topological_sort gArrow (some [1]) none = [1] ∧
    0 ∈ gArrow.predecessors 1 ∧
    0 ∉ dfs_topological_sort gArrow (some [1]) none := by
  have hnb : gArrow.neighbors 1 = [] := by decide
  have he : dfs_topological_sort gArrow (some [1]) none = [1] := by
    show dfsTopoLoop gArrow none [1] [] ∅ = [1]
    rw [dfsTopoLoop, dif_neg (by simp)]
    rw [hnb, dfsTopoLoop, dfsTopoLoop]
  refine ⟨he, by decide, ?_⟩
  rw [he]
  decide

/-- C1 witness: in the graph 0 → 1 started from source 0, node 1 is
emitted after its predecessor 0. -/
theorem C1_dfs_topological_sort_pred_earlier_witness :
    [0, 1].Sublist (dfs_topological_sort gArrow (some [0]) none) := by
  have hnb0 : gArrow.neighbors 0 = [1] := by decide
  have hnb1 : gArrow.neighbors 1 = [] := by decide
  have he : dfs_topological_sort gArrow (some [0]) none = [0, 1] := by
    show dfsTopoLoop gArrow none [0] [] ∅ = [0, 1]
    rw [dfsTopoLoop, dif_neg (by simp), hnb0]
    rw [dfsTopoLoop, dif_neg (by decide), if_neg (by decide), if_pos (by decide), hnb1]
    rw [dfsTopoLoop, dfsTopoLoop, dfsTopoLoop]
  have hmem : 1 ∈ dfs_topological_sort gArrow (some [0]) none := by
    rw [he]
    decide
  exact C1_dfs_topological_sort_pred_earlier gArrow [0] 1 0 hmem (by decide) (by decide)

/-- C10: the sequence produced by `dfs_topological_sort` never contains a
node twice, for any graph, any source specification (an explicit list —
covering a single wrapped node, repeated entries and already-reached
nodes — or the omitted form walking all graph nodes) and any pruning
condition: starts already visited are skipped, and a child is emitted only
while unvisited and is marked visited at emission. -/
theorem C10_dfs_topological_sort_nodup (g : Graph ν δ) (sources : Option (List ν))
    (condition : Option (ν → ν → Bool)) :
    (dfs_topological_sort g sources condition).Nodup :=
  dfsTopoLoop_nodup g condition _ [] ∅

/-- C5: whenever `merge_maps` succeeds (the caller-guaranteed validity of
the nested pair, modelled as the run returning `some`), the fused map of
the returned entry carries exactly `param_merge` of the outer and inner
parameter lists and `range_merge` of the outer and inner ranges, inherits
schedule, unroll, is_async, flatten (and debuginfo) from the outer map,
and the new entry and exit inherit the outer entry's and outer exit's
connector sets verbatim; moreover no edge of the resulting graph
references any of the four removed boundary nodes, in either direction. -/
theorem C5_merge_maps_fusion (g : Graph MNode δ)
    (oid oxid iid ixid : Nat) (om oxm im ixm : MapData)
    (oin oout oxin oxout iin iout ixin ixout : List String)
    (pm rm : List String → List String → List String) (eid xid : Nat)
    (g2 : Graph MNode δ) (me mx : MNode)
    (hrun : merge_maps g (MNode.mapEntry oid om oin oout)
      (MNode.mapExit oxid oxm oxin oxout) (MNode.mapEntry iid im iin iout)
      (MNode.mapExit ixid ixm ixin ixout) pm rm eid xid = some (g2, me, mx)) :
    me = MNode.mapEntry eid
      { label := "_merged_" ++ om.label ++ "_" ++ im.label,
        params := pm om.params im.params, range := rm om.range im.range,
        schedule := om.schedule, unroll := om.unroll, is_async := om.is_async,
        flatten := om.flatten, debuginfo := om.debuginfo } oin oout ∧
    mx = MNode.mapExit xid
      { label := "_merged_" ++ om.label ++ "_" ++ im.label,
        params := pm om.params im.params, range := rm om.range im.range,
        schedule := om.schedule, unroll := om.unroll, is_async := om.is_async,
        flatten := om.flatten, debuginfo := om.debuginfo } oxin oxout ∧
    (∀ e ∈ g2.edges,
      (e.src ≠ MNode.mapEntry oid om oin oout ∧
       e.src ≠ MNode.mapExit oxid oxm oxin oxout ∧
       e.src ≠ MNode.mapEntry iid im iin iout ∧
       e.src ≠ MNode.mapExit ixid ixm ixin ixout) ∧
      (e.dst ≠ MNode.mapEntry oid om oin oout ∧
       e.dst ≠ MNode.mapExit oxid oxm oxin oxout ∧
       e.dst ≠ MNode.mapEntry iid im iin iout ∧
       e.dst ≠ MNode.mapExit ixid ixm ixin ixout)) := by
  rw [merge_maps] at hrun
  simp only [MNode.mapData, MNode.inConnsOf, MNode.outConnsOf, Option.bind_eq_bind,
    Option.some_bind] at hrun
  obtain ⟨ga, hga, hrun⟩ := Option.bind_eq_some.mp hrun
  obtain ⟨gb, hgb, hrun⟩ := Option.bind_eq_some.mp hrun
  simp only [pure, Option.some.injEq, Prod.mk.injEq] at hrun
  obtain ⟨hg2, hme, hmx⟩ := hrun
  refine ⟨hme.symm, hmx.symm, ?_⟩
  intro e he
  rw [← hg2, mem_remove_nodes_from_edges] at he
  obtain ⟨_, hsrc, hdst⟩ := he
  simp only [List.mem_cons, List.not_mem_nil, or_false, not_or] at hsrc hdst
  exact ⟨⟨hsrc.1, hsrc.2.1, hsrc.2.2.1, hsrc.2.2.2⟩,
    ⟨hdst.1, hdst.2.1, hdst.2.2.1, hdst.2.2.2⟩⟩

/-- C5 witness: fusing the concrete nested pass-through maps of `gMaps`
(outer parameter `i` over `0:N`, inner `j` over `0:M`, one `IN_0`/`OUT_0`
pair) produces an entry whose map has parameters `[i, j]` and range
`[0:N, 0:M]` with the outer connector sets, and the resulting graph has no
edge touching the removed outer entry or inner exit. -/
theorem C5_merge_maps_fusion_witness :
    gMapsRes.2.1 = MNode.mapEntry 10
      { label := "_merged_outer_inner", params := ["i", "j"],
        range := ["0:N", "0:M"], schedule := 0, unroll := false,
        is_async := false, flatten := false, debuginfo := none }
      ["IN_0"] ["OUT_0"] ∧
    ∀ e ∈ gMapsRes.1.edges, e.src ≠ omeW ∧ e.dst ≠ imxW := by
  have h := C5_merge_maps_fusion gMaps 0 1 2 3 mapO mapO mapI mapI
    ["IN_0"] ["OUT_0"] ["IN_0"] ["OUT_0"] ["IN_0"] ["OUT_0"] ["IN_0"] ["OUT_0"]
    (fun a b => a ++ b) (fun a b => a ++ b) 10 11
    gMapsRes.1 gMapsRes.2.1 gMapsRes.2.2 (by decide)
  refine ⟨h.1, ?_⟩
  intro e he
  exact ⟨(h.2.2 e he).1.1, (h.2.2 e he).2.2.2.2⟩

end DaceNx
